import Mathlib

/-!
Verification of the 128-bit integer arithmetic engine of the epsilon
repository (src/physics/geometry/point64.go and int128.go).

The engine represents a 128-bit value as two 64-bit words `hi`/`lo`.
We embed the Go code shallowly: Go `uint64` values become `Nat` together
with an explicit `% 2^64` wherever the machine arithmetic wraps, and Go
run-time panics (division by zero, `bits.Div64` overflow, short byte
buffers) become `Option` results with `none` marking the panic.
The primitives `add64`, `sub64`, `mul64`, `div64` model the Go standard
library intrinsics `bits.Add64`, `bits.Sub64`, `bits.Mul64`, `bits.Div64`
(the repository aliases them as `Add64`/`Sub64`/`Mul64`/`Div64` for its
`Uint64` word type); `len64`, `lz64`, `tz64` model `bits.Len64`,
`bits.LeadingZeros64`, `bits.TrailingZeros64`.
-/

/-- Model of Go `bits.Add64`: 64-bit addition with carry in and carry out. -/
def add64 (x y c : Nat) : Nat × Nat :=
  ((x + y + c) % 2 ^ 64, (x + y + c) / 2 ^ 64)

/-- Model of Go `bits.Sub64`: 64-bit subtraction with borrow in and borrow out. -/
def sub64 (x y b : Nat) : Nat × Nat :=
  (((x + 2 ^ 65) - (y + b)) % 2 ^ 64, if x < y + b then 1 else 0)

/-- Model of Go `bits.Mul64`: the full 128-bit product, returned as (hi, lo). -/
def mul64 (x y : Nat) : Nat × Nat :=
  (x * y / 2 ^ 64, x * y % 2 ^ 64)

/-- Model of Go `bits.Div64 (hi, lo, y)`: 128-by-64 division returning
quotient and remainder; `none` models the run-time panic that Go raises
when `y == 0` (division by zero) or `y <= hi` (quotient overflow). -/
def div64 (hi lo y : Nat) : Option (Nat × Nat) :=
  if y = 0 ∨ y ≤ hi then none
  else some ((hi * 2 ^ 64 + lo) / y, (hi * 2 ^ 64 + lo) % y)

/-- Model of Go native `/` on `uint64`: `none` models the division-by-zero panic. -/
def ndiv (x y : Nat) : Option Nat :=
  if y = 0 then none else some (x / y)

/-- Model of Go native `%` on `uint64`: `none` models the division-by-zero panic. -/
def nmod (x y : Nat) : Option Nat :=
  if y = 0 then none else some (x % y)

/-- Wrapping 64-bit addition: Go `x + y` on `uint64`. -/
def wadd (x y : Nat) : Nat := (x + y) % 2 ^ 64

/-- Wrapping 64-bit subtraction: Go `x - y` on `uint64` (operands below `2^64`). -/
def wsub (x y : Nat) : Nat := ((x + 2 ^ 64) - y) % 2 ^ 64

/-- Wrapping 64-bit multiplication: Go `x * y` on `uint64`. -/
def wmul (x y : Nat) : Nat := x * y % 2 ^ 64

/-- Wrapping 64-bit left shift: Go `x << n` on `uint64` (any shift count). -/
def wshl (x n : Nat) : Nat := (x <<< n) % 2 ^ 64

/-- Logical 64-bit right shift: Go `x >> n` on `uint64`. -/
def wshr (x n : Nat) : Nat := x >>> n

/-- Model of Go `^x` on `uint64`: bitwise complement. -/
def not64 (x : Nat) : Nat := (2 ^ 64 - 1) - x

/-- Model of Go `bits.Len64`: number of bits needed to represent `x`; 0 for 0. -/
def len64 (x : Nat) : Nat := if x = 0 then 0 else Nat.log2 x + 1

/-- Model of Go `bits.LeadingZeros64`. -/
def lz64 (x : Nat) : Nat := 64 - len64 x

/-- Helper for `tz64`: counts factors of two with explicit fuel. -/
def tzAux : Nat → Nat → Nat
  | 0, _ => 0
  | f + 1, x => if x % 2 = 1 then 0 else tzAux f (x / 2) + 1

/-- Model of Go `bits.TrailingZeros64`: 64 for 0, else the 2-adic valuation. -/
def tz64 (x : Nat) : Nat := if x = 0 then 64 else tzAux 64 x

/-- The unsigned 128-bit integer: two 64-bit words, `lo` least significant
(`point64.go`, `type Uint128 struct { hi, lo uint64 }`). -/
structure Uint128 where
  hi : Nat
  lo : Nat
deriving DecidableEq, Repr

/-- The signed 128-bit integer: same word pair read as two's complement
(`int128.go`, `type Int128 struct { hi, lo Uint64 }`). -/
structure Int128 where
  hi : Nat
  lo : Nat
deriving DecidableEq, Repr

/-- Abstraction map: the unsigned integer value `hi*2^64 + lo` a `Uint128` denotes. -/
def Uint128.toNat (u : Uint128) : Nat := u.hi * 2 ^ 64 + u.lo

/-- Well-formedness: both words fit in 64 bits (automatic for Go `uint64` fields). -/
def Uint128.Wf (u : Uint128) : Prop := u.hi < 2 ^ 64 ∧ u.lo < 2 ^ 64

instance (u : Uint128) : Decidable u.Wf := by unfold Uint128.Wf; infer_instance

/-- Abstraction map: the two's-complement integer value an `Int128` denotes. -/
def Int128.toInt (i : Int128) : Int :=
  if i.hi < 2 ^ 63 then ((i.hi * 2 ^ 64 + i.lo : Nat) : Int)
  else ((i.hi * 2 ^ 64 + i.lo : Nat) : Int) - 2 ^ 128

/-- Well-formedness: both words fit in 64 bits. -/
def Int128.Wf (i : Int128) : Prop := i.hi < 2 ^ 64 ∧ i.lo < 2 ^ 64

instance (i : Int128) : Decidable i.Wf := by unfold Int128.Wf; infer_instance

/-- Shared constant `maxUint64` (dmul.go). -/
def maxUint64 : Nat := 2 ^ 64 - 1

/-- Shared constant `MaxUint128` (dmul.go). -/
def MaxUint128 : Uint128 := ⟨maxUint64, maxUint64⟩

/-- Shared constant `MaxInt128` (dmul.go). -/
def MaxInt128 : Int128 := ⟨0x7FFFFFFFFFFFFFFF, 0xFFFFFFFFFFFFFFFF⟩

/-- Shared constant `MinInt128` (dmul.go). -/
def MinInt128 : Int128 := ⟨0x8000000000000000, 0⟩

/-- Shared constant `zeroUint128` (dmul.go). -/
def zeroUint128 : Uint128 := ⟨0, 0⟩

/-- Shared constant `zeroInt128` (dmul.go). -/
def zeroInt128 : Int128 := ⟨0, 0⟩

/-- Shared constant `int128SignBit` (int128.go). -/
def int128SignBit : Nat := 0x8000000000000000

/-- Constructor `Uint128From64` (point64.go). -/
def Uint128From64 (v : Nat) : Uint128 := ⟨0, v⟩

/-- Constructor `Uint128FromRaw` (point64.go). -/
def Uint128FromRaw (hi lo : Nat) : Uint128 := ⟨hi, lo⟩

namespace Uint128

/-- Method `Uint128.IsZero` (point64.go). -/
def IsZero (u : Uint128) : Bool := u.lo = 0 && u.hi = 0

/-- Method `Uint128.Inc` (point64.go). -/
def Inc (u : Uint128) : Uint128 :=
  let p := add64 u.lo 1 0
  ⟨wadd u.hi p.2, p.1⟩

/-- Method `Uint128.Dec` (point64.go). -/
def Dec (u : Uint128) : Uint128 :=
  let p := sub64 u.lo 1 0
  ⟨wsub u.hi p.2, p.1⟩

/-- Method `Uint128.Add` (point64.go). -/
def Add (u n : Uint128) : Uint128 :=
  let p := add64 u.lo n.lo 0
  let q := add64 u.hi n.hi p.2
  ⟨q.1, p.1⟩

/-- Method `Uint128.Add64` (point64.go). -/
def Add64 (u : Uint128) (n : Nat) : Uint128 :=
  let p := add64 u.lo n 0
  ⟨wadd u.hi p.2, p.1⟩

/-- Method `Uint128.Sub` (point64.go). -/
def Sub (u n : Uint128) : Uint128 :=
  let p := sub64 u.lo n.lo 0
  let q := sub64 u.hi n.hi p.2
  ⟨q.1, p.1⟩

/-- Method `Uint128.Sub64` (point64.go). -/
def Sub64 (u : Uint128) (n : Nat) : Uint128 :=
  let p := sub64 u.lo n 0
  ⟨wsub u.hi p.2, p.1⟩

/-- Method `Uint128.Cmp` (point64.go); Go returns an `int`. -/
def Cmp (u n : Uint128) : Int :=
  if u.hi = n.hi then
    if u.lo > n.lo then 1 else if u.lo < n.lo then -1 else 0
  else
    if u.hi > n.hi then 1 else if u.hi < n.hi then -1 else 0

/-- Method `Uint128.Cmp64` (point64.go). -/
def Cmp64 (u : Uint128) (n : Nat) : Int :=
  if u.hi > 0 ∨ u.lo > n then 1 else if u.lo < n then -1 else 0

/-- Method `Uint128.Equal` (point64.go). -/
def Equal (u n : Uint128) : Bool := u.hi = n.hi && u.lo = n.lo

/-- Method `Uint128.And` (point64.go). -/
def And (u n : Uint128) : Uint128 := ⟨u.hi &&& n.hi, u.lo &&& n.lo⟩

/-- Method `Uint128.Lsh` (point64.go): logical left shift by `n` bits. -/
def Lsh (u : Uint128) (n : Nat) : Uint128 :=
  if n = 0 then u
  else if n > 64 then ⟨wshl u.lo (n - 64), 0⟩
  else if n < 64 then ⟨wshl u.hi n ||| wshr u.lo (64 - n), wshl u.lo n⟩
  else ⟨u.lo, 0⟩

/-- Method `Uint128.Rsh` (point64.go): logical right shift by `n` bits. -/
def Rsh (u : Uint128) (n : Nat) : Uint128 :=
  if n = 0 then u
  else if n > 64 then ⟨0, wshr u.hi (n - 64)⟩
  else if n < 64 then ⟨wshr u.hi n, wshr u.lo n ||| wshl u.hi (64 - n)⟩
  else ⟨0, u.hi⟩

/-- Method `Uint128.Mul` (point64.go): wrapping 128-bit multiplication. -/
def Mul (u n : Uint128) : Uint128 :=
  let p := mul64 u.lo n.lo
  ⟨(p.1 + (wmul u.hi n.lo + wmul u.lo n.hi) % 2 ^ 64) % 2 ^ 64, p.2⟩

/-- Method `Uint128.LeadingZeros` (point64.go). -/
def LeadingZeros (u : Uint128) : Nat :=
  if u.hi = 0 then lz64 u.lo + 64 else lz64 u.hi

/-- Method `Uint128.TrailingZeros` (point64.go). -/
def TrailingZeros (u : Uint128) : Nat :=
  if u.lo = 0 then tz64 u.hi + 64 else tz64 u.lo

/-- Method `Uint128.RotateLeft` (point64.go): `uint(k) & 127` selects the
left-rotation amount; negative `k` therefore rotates right. -/
def RotateLeft (u : Uint128) (k : Int) : Uint128 :=
  let s : Nat := (k % (2 ^ 64 : Nat)).toNat &&& 127
  if s > 64 then
    let t := 128 - s
    let l := 64 - t
    ⟨wshr u.hi t ||| wshl u.lo l, wshr u.lo t ||| wshl u.hi l⟩
  else
    let l := 64 - s
    ⟨wshl u.hi s ||| wshr u.lo l, wshl u.lo s ||| wshr u.hi l⟩

end Uint128

/-- Tuning constant `divAlgoLeading0Spill` (point64.go). -/
def divAlgoLeading0Spill : Nat := 16

/-- Correction loop shared by the two `goto again` blocks of `quo128by64` and
`quorem128by64` (point64.go, Hacker's Delight 9-4 `divlu`): decrement the
quotient-digit estimate while it is too large.  The Go loop body runs at most
twice when the Knuth preconditions hold; the fuel argument merely makes the
modeled recursion total (state is `q1, rhat, left, right`). -/
def knuthLoop (vn1 vn0 un : Nat) : Nat → Nat → Nat → Nat → Nat → Nat × Nat
  | 0, q1, rhat, _, _ => (q1, rhat)
  | f + 1, q1, rhat, left, right =>
    if q1 ≥ 2 ^ 32 ∨ left > right then
      let q1n := wsub q1 1
      let rhatn := wadd rhat vn1
      if rhatn < 2 ^ 32 then
        knuthLoop vn1 vn0 un f q1n rhatn (wsub left vn0) (wshl rhatn 32 ||| un)
      else (q1n, rhatn)
    else (q1, rhat)

/-- Fuel for `knuthLoop`; any value above `2^32 + 2` exceeds the worst case. -/
def knuthFuel : Nat := 2 ^ 33

/-- Helper `quo128by64` (point64.go, Hacker's Delight 9-4 `divlu`):
quotient of the 128-bit value `u1*2^64 + u0` by the 64-bit `v`. -/
def quo128by64 (u1 u0 v vLeading0 : Nat) : Nat :=
  let vs := wshl v vLeading0
  let vn1 := wshr vs 32
  let vn0 := vs &&& 0xffffffff
  let un32 :=
    if vLeading0 > 0 then wshl u1 vLeading0 ||| wshr u0 (64 - vLeading0) else u1
  let un10 := if vLeading0 > 0 then wshl u0 vLeading0 else u0
  let un1 := wshr un10 32
  let un0 := un10 &&& 0xffffffff
  let q1i := un32 / vn1
  let rhati := un32 % vn1
  let p1 := knuthLoop vn1 vn0 un1 knuthFuel q1i rhati (wmul q1i vn0) (wshl rhati 32 ||| un1)
  let q1 := p1.1
  let un21 := wadd (wshl un32 32) (wsub un1 (wmul q1 vs))
  let q0i := un21 / vn1
  let rhat0 := un21 % vn1
  let p2 := knuthLoop vn1 vn0 un0 knuthFuel q0i rhat0 (wmul q0i vn0) (wshl rhat0 32 ||| un0)
  let q0 := p2.1
  wshl q1 32 ||| q0

/-- Helper `quorem128by64` (point64.go, Hacker's Delight 9-4 `divlu`):
quotient and remainder of `u1*2^64 + u0` by the 64-bit `v`.  Identical to
`quo128by64` except that the first loop's `right` is seeded with `+` instead
of `|` (as in the source) and the remainder is computed at the end. -/
def quorem128by64 (u1 u0 v vLeading0 : Nat) : Nat × Nat :=
  let vs := wshl v vLeading0
  let vn1 := wshr vs 32
  let vn0 := vs &&& 0xffffffff
  let un32 :=
    if vLeading0 > 0 then wshl u1 vLeading0 ||| wshr u0 (64 - vLeading0) else u1
  let un10 := if vLeading0 > 0 then wshl u0 vLeading0 else u0
  let un1 := wshr un10 32
  let un0 := un10 &&& 0xffffffff
  let q1i := un32 / vn1
  let rhati := un32 % vn1
  let p1 := knuthLoop vn1 vn0 un1 knuthFuel q1i rhati (wmul q1i vn0) (wshl rhati 32 + un1)
  let q1 := p1.1
  let un21 := wadd (wshl un32 32) (wsub un1 (wmul q1 vs))
  let q0i := un21 / vn1
  let rhat0 := un21 % vn1
  let p2 := knuthLoop vn1 vn0 un0 knuthFuel q0i rhat0 (wmul q0i vn0) (wshl rhat0 32 ||| un0)
  let q0 := p2.1
  (wshl q1 32 ||| q0, wshr (wadd (wshl un21 32) (wsub un0 (wmul q0 vs))) vLeading0)

/-- Helper `quorem128by128` (point64.go): 128-by-128 division; the `v.hi == 0`
arm splits into two 128-by-64 steps, the other arm estimates the quotient from
the top 64 bits of the normalized divisor and corrects by at most one step. -/
def quorem128by128 (m v : Uint128) (vHiLeading0 vLoLeading0 : Nat) :
    Uint128 × Uint128 :=
  if v.hi = 0 then
    if m.hi < v.lo then
      let p := quorem128by64 m.hi m.lo v.lo vLoLeading0
      (⟨0, p.1⟩, ⟨0, p.2⟩)
    else
      let qhi := m.hi / v.lo
      let rhi := m.hi % v.lo
      let p := quorem128by64 rhi m.lo v.lo vLoLeading0
      (⟨qhi, p.1⟩, ⟨0, p.2⟩)
  else
    let v1 := v.Lsh vHiLeading0
    let u1 := m.Rsh 1
    let q1a : Uint128 := ⟨0, quo128by64 u1.hi u1.lo v1.hi vLoLeading0⟩
    let q1b := q1a.Rsh (63 - vHiLeading0)
    let q1c := if q1b.hi ||| q1b.lo ≠ 0 then q1b.Dec else q1b
    let prod := q1c.Mul v
    let r := m.Sub prod
    if r.Cmp v ≥ 0 then (q1c.Inc, r.Sub v) else (q1c, r)

/-- Body of the `for` loop shared by `quorem128bin` and `quo128bin`
(point64.go): shift the quotient left, subtract the shifted divisor when it
fits, set the low quotient bit accordingly. -/
def binStep (q u dsor : Uint128) : Uint128 × Uint128 :=
  let qs : Uint128 := ⟨wshl q.hi 1 ||| wshr q.lo 63, wshl q.lo 1⟩
  if u.hi > dsor.hi ∨ (u.hi = dsor.hi ∧ u.lo ≥ dsor.lo) then
    (⟨qs.hi, qs.lo ||| 1⟩, u.Sub dsor)
  else (qs, u)

/-- The 128-bit `by >> 1` step at the bottom of the binary-division loop. -/
def binShr1 (x : Uint128) : Uint128 :=
  ⟨wshr x.hi 1, wshr x.lo 1 ||| wshl x.hi 63⟩

/-- The binary-division loop of `quorem128bin`/`quo128bin` (point64.go): the
body runs `count + 1` times, matching Go's `if shift <= 0 break; shift--`. -/
def binLoop : Nat → Uint128 → Uint128 → Uint128 → Uint128 × Uint128
  | 0, q, u, dsor => binStep q u dsor
  | n + 1, q, u, dsor =>
    let p := binStep q u dsor
    binLoop n p.1 p.2 (binShr1 dsor)

/-- Helper `quorem128bin` (point64.go): binary shift-compare-subtract long
division.  Go computes `shift := int(byLeading0 - uLeading0)` with unsigned
subtraction; a wrapped (negative) shift makes the loop run exactly once. -/
def quorem128bin (u dsor : Uint128) (uLeading0 byLeading0 : Nat) :
    Uint128 × Uint128 :=
  let shift := wsub byLeading0 uLeading0
  let count := if shift < 2 ^ 63 then shift else 0
  binLoop count ⟨0, 0⟩ u (dsor.Lsh shift)

/-- Helper `quo128bin` (point64.go): same loop as `quorem128bin` (the Go
source duplicates the body verbatim), returning only the quotient. -/
def quo128bin (u dsor : Uint128) (uLeading0 byLeading0 : Nat) : Uint128 :=
  let shift := wsub byLeading0 uLeading0
  let count := if shift < 2 ^ 63 then shift else 0
  (binLoop count ⟨0, 0⟩ u (dsor.Lsh shift)).1

namespace Uint128

/-- Method `Uint128.QuoRem` (point64.go).  `none` models the explicit
division-by-zero panic; all divisions on the nonzero-divisor paths are
protected by the dispatch (their divisors are provably nonzero there). -/
def QuoRem (u dsor : Uint128) : Option (Uint128 × Uint128) :=
  if dsor.lo = 0 ∧ dsor.hi = 0 then none
  else if u.hi ||| dsor.hi = 0 then
    some (⟨0, u.lo / dsor.lo⟩, ⟨0, u.lo % dsor.lo⟩)
  else
    let byLoLeading0 := if dsor.hi = 0 then lz64 dsor.lo else 0
    let byHiLeading0 := if dsor.hi = 0 then 64 else lz64 dsor.hi
    let byLeading0 := if dsor.hi = 0 then lz64 dsor.lo + 64 else lz64 dsor.hi
    if byLeading0 = 127 then some (u, ⟨0, 0⟩)
    else
      let byTrailing0 := dsor.TrailingZeros
      if byLeading0 + byTrailing0 = 127 then
        some (u.Rsh byTrailing0, dsor.Dec.And u)
      else
        if u.Cmp dsor < 0 then some (⟨0, 0⟩, u)
        else if u.Cmp dsor = 0 then some (⟨0, 1⟩, ⟨0, 0⟩)
        else
          let uLeading0 := u.LeadingZeros
          if wsub byLeading0 uLeading0 > divAlgoLeading0Spill then
            some (quorem128by128 u dsor byHiLeading0 byLoLeading0)
          else
            some (quorem128bin u dsor uLeading0 byLeading0)

/-- Method `Uint128.Quo` (point64.go): same dispatch as `QuoRem`, quotient
only, using the quotient-only helpers `quorem128by128`/`quo128bin`. -/
def Quo (u dsor : Uint128) : Option Uint128 :=
  if dsor.lo = 0 ∧ dsor.hi = 0 then none
  else if u.hi ||| dsor.hi = 0 then
    some ⟨0, u.lo / dsor.lo⟩
  else
    let byLoLeading0 := if dsor.hi = 0 then lz64 dsor.lo else 0
    let byHiLeading0 := if dsor.hi = 0 then 64 else lz64 dsor.hi
    let byLeading0 := if dsor.hi = 0 then lz64 dsor.lo + 64 else lz64 dsor.hi
    if byLeading0 = 127 then some u
    else
      let byTrailing0 := dsor.TrailingZeros
      if byLeading0 + byTrailing0 = 127 then
        some (u.Rsh byTrailing0)
      else
        if u.Cmp dsor < 0 then some ⟨0, 0⟩
        else if u.Cmp dsor = 0 then some ⟨0, 1⟩
        else
          let uLeading0 := u.LeadingZeros
          if wsub byLeading0 uLeading0 > divAlgoLeading0Spill then
            some (quorem128by128 u dsor byHiLeading0 byLoLeading0).1
          else
            some (quo128bin u dsor uLeading0 byLeading0)

/-- Method `Uint128.Rem` (point64.go): delegates to `QuoRem`. -/
def Rem (u dsor : Uint128) : Option Uint128 :=
  (u.QuoRem dsor).map (·.2)

/-- Method `Uint128.QuoRem64` (point64.go): 64-bit-divisor variant built on
`bits.Div64`; a zero divisor panics inside `bits.Div64`. -/
def QuoRem64 (u : Uint128) (v : Nat) : Option (Uint128 × Uint128) :=
  if u.hi < v then do
    let p ← div64 u.hi u.lo v
    pure (⟨0, p.1⟩, ⟨0, p.2⟩)
  else do
    let p ← div64 0 u.hi v
    let q ← div64 p.2 u.lo v
    pure (⟨p.1, q.1⟩, ⟨0, q.2⟩)

/-- Method `Uint128.Quo64` (point64.go). -/
def Quo64 (u : Uint128) (v : Nat) : Option Uint128 :=
  if u.hi < v then do
    let p ← div64 u.hi u.lo v
    pure ⟨0, p.1⟩
  else do
    let qhi ← ndiv u.hi v
    let rhi ← nmod u.hi v
    let p ← div64 rhi u.lo v
    pure ⟨qhi, p.1⟩

/-- Method `Uint128.Rem64` (point64.go). -/
def Rem64 (u : Uint128) (v : Nat) : Option Uint128 :=
  if u.hi < v then do
    let p ← div64 u.hi u.lo v
    pure ⟨0, p.2⟩
  else do
    let p ← div64 0 u.hi v
    let q ← div64 p.2 u.lo v
    pure ⟨0, q.2⟩

/-- Method `Uint128.AsInt128` (point64.go): direct cast to two's complement. -/
def AsInt128 (u : Uint128) : Int128 := ⟨u.hi, u.lo⟩

end Uint128

/-- Go `uint64(n)` for an `int64` value: the two's-complement bit pattern. -/
def u64ofInt (n : Int) : Nat := (n % ((2 ^ 64 : Nat) : Int)).toNat

/-- Go `-n` on `int64`: wrapping negation (`-minInt64` stays `minInt64`). -/
def negInt64 (n : Int) : Int := ((-n + 2 ^ 63) % 2 ^ 64) - 2 ^ 63

/-- Constructor `Int128FromInt64` (int128.go). -/
def Int128FromInt64 (v : Int) : Int128 :=
  ⟨if v < 0 then maxUint64 else 0, u64ofInt v⟩

namespace Int128

/-- Method `Int128.AsUint128` (int128.go): direct cast of the word pair. -/
def AsUint128 (i : Int128) : Uint128 := ⟨i.hi, i.lo⟩

/-- Method `Int128.Neg` (int128.go): two's-complement negation with the
`MinInt128` fixed point special-cased. -/
def Neg (i : Int128) : Int128 :=
  if i.hi = 0 ∧ i.lo = 0 then ⟨0, 0⟩
  else if i = MinInt128 then i
  else
    let v : Int128 :=
      if i.hi &&& int128SignBit ≠ 0 then ⟨not64 i.hi, not64 (wsub i.lo 1)⟩
      else ⟨not64 i.hi, wadd (not64 i.lo) 1⟩
    if v.lo = 0 then ⟨wadd v.hi 1, v.lo⟩ else v

/-- Method `Int128.Add` (int128.go). -/
def Add (i n : Int128) : Int128 :=
  let p := add64 i.lo n.lo 0
  let q := add64 i.hi n.hi p.2
  ⟨q.1, p.1⟩

/-- Method `Int128.Add64` (int128.go). -/
def Add64 (i : Int128) (n : Int) : Int128 :=
  let p := add64 i.lo (u64ofInt n) 0
  if n < 0 then ⟨(i.hi + maxUint64 + p.2) % 2 ^ 64, p.1⟩
  else ⟨wadd i.hi p.2, p.1⟩

/-- Method `Int128.Sub` (int128.go). -/
def Sub (i n : Int128) : Int128 :=
  let p := sub64 i.lo n.lo 0
  let q := sub64 i.hi n.hi p.2
  ⟨q.1, p.1⟩

/-- Method `Int128.Sub64` (int128.go). -/
def Sub64 (i : Int128) (n : Int) : Int128 :=
  let p := sub64 i.lo (u64ofInt n) 0
  if n < 0 then ⟨wsub (wsub i.hi maxUint64) p.2, p.1⟩
  else ⟨wsub i.hi p.2, p.1⟩

/-- Method `Int128.Cmp` (int128.go): two's-complement comparison. -/
def Cmp (i n : Int128) : Int :=
  if i.hi = n.hi ∧ i.lo = n.lo then 0
  else if i.hi &&& int128SignBit = n.hi &&& int128SignBit then
    if i.hi > n.hi ∨ (i.hi = n.hi ∧ i.lo > n.lo) then 1 else -1
  else if i.hi &&& int128SignBit = 0 then 1
  else -1

/-- Method `Int128.Cmp64` (int128.go). -/
def Cmp64 (i : Int128) (n : Int) : Int :=
  let nhi := if n < 0 then maxUint64 else 0
  let nlo := u64ofInt n
  if i.hi = nhi ∧ i.lo = nlo then 0
  else if i.hi &&& int128SignBit = nhi &&& int128SignBit then
    if i.hi > nhi ∨ (i.hi = nhi ∧ i.lo > nlo) then 1 else -1
  else if i.hi &&& int128SignBit = 0 then 1
  else -1

/-- Method `Int128.LessThan` (int128.go). -/
def LessThan (i n : Int128) : Bool :=
  if i.hi &&& int128SignBit = n.hi &&& int128SignBit then
    decide (i.hi < n.hi ∨ (i.hi = n.hi ∧ i.lo < n.lo))
  else if i.hi &&& int128SignBit ≠ 0 then true
  else false

/-- Method `Int128.QuoRem` (int128.go): strip signs, delegate the magnitude
division to the unsigned engine, reapply signs. -/
def QuoRem (i dsor : Int128) : Option (Int128 × Int128) :=
  let s1 := if i.LessThan zeroInt128 then ((-1 : Int), (-1 : Int), i.Neg) else (1, 1, i)
  let qSign1 := s1.1
  let rSign := s1.2.1
  let i1 := s1.2.2
  let s2 := if dsor.LessThan zeroInt128 then (-qSign1, dsor.Neg) else (qSign1, dsor)
  let qSign := s2.1
  let d1 := s2.2
  do
    let p ← i1.AsUint128.QuoRem d1.AsUint128
    let q := p.1.AsInt128
    let r := p.2.AsInt128
    let q := if qSign < 0 then q.Neg else q
    let r := if rSign < 0 then r.Neg else r
    pure (q, r)

/-- Method `Int128.Quo` (int128.go). -/
def Quo (i dsor : Int128) : Option Int128 :=
  let s1 := if i.LessThan zeroInt128 then ((-1 : Int), i.Neg) else (1, i)
  let qSign1 := s1.1
  let i1 := s1.2
  let s2 := if dsor.LessThan zeroInt128 then (-qSign1, dsor.Neg) else (qSign1, dsor)
  let qSign := s2.1
  let d1 := s2.2
  do
    let qu ← i1.AsUint128.Quo d1.AsUint128
    let q := qu.AsInt128
    pure (if qSign < 0 then q.Neg else q)

/-- Method `Int128.Rem` (int128.go): delegates to `QuoRem`. -/
def Rem (i dsor : Int128) : Option Int128 :=
  (i.QuoRem dsor).map (·.2)

/-- Method `Int128.QuoRem64` (int128.go): sign-strip, two `Div64` steps on
the magnitude, reapply signs.  Note Go's `by = -by` wraps for `minInt64`. -/
def QuoRem64 (i : Int128) (v : Int) : Option (Int128 × Int128) :=
  let ineg := i.hi &&& int128SignBit ≠ 0
  let i1 := if ineg then i.Neg else i
  let byneg := v < 0
  let v1 := if byneg then negInt64 v else v
  let n := u64ofInt v1
  do
    let p ←
      if i1.hi < n then do
        let s ← div64 i1.hi i1.lo n
        pure ((⟨0, s.1⟩ : Int128), (⟨0, s.2⟩ : Int128))
      else do
        let s ← div64 0 i1.hi n
        let t ← div64 s.2 i1.lo n
        pure ((⟨s.1, t.1⟩ : Int128), (⟨0, t.2⟩ : Int128))
    let q := if ineg ≠ byneg then p.1.Neg else p.1
    let r := if ineg then p.2.Neg else p.2
    pure (q, r)

/-- Method `Int128.Quo64` (int128.go). -/
def Quo64 (i : Int128) (v : Int) : Option Int128 :=
  let ineg := i.hi &&& int128SignBit ≠ 0
  let i1 := if ineg then i.Neg else i
  let byneg := v < 0
  let v1 := if byneg then negInt64 v else v
  let n := u64ofInt v1
  do
    let q ←
      if i1.hi < n then do
        let s ← div64 i1.hi i1.lo n
        pure (⟨0, s.1⟩ : Int128)
      else do
        let s ← div64 0 i1.hi n
        let t ← div64 s.2 i1.lo n
        pure (⟨s.1, t.1⟩ : Int128)
    pure (if ineg ≠ byneg then q.Neg else q)

/-- Method `Int128.Rem64` (int128.go). -/
def Rem64 (i : Int128) (v : Int) : Option Int128 :=
  let ineg := i.hi &&& int128SignBit ≠ 0
  let i1 := if ineg then i.Neg else i
  let v1 := if v < 0 then negInt64 v else v
  let n := u64ofInt v1
  do
    let r ←
      if i1.hi < n then do
        let s ← div64 i1.hi i1.lo n
        pure (⟨0, s.2⟩ : Int128)
      else do
        let s ← div64 0 i1.hi n
        let t ← div64 s.2 i1.lo n
        pure (⟨0, t.2⟩ : Int128)
    pure (if ineg then r.Neg else r)

end Int128

/-- Go `byte(x >> s)` on a `uint64`: one octet of `x`. -/
def byteOf (x s : Nat) : Nat := (x >>> s) % 256

namespace Uint128

/-- Method `Uint128.PutBigEndian` (point64.go): writes 16 bytes into the
front of the buffer; `none` models the bounds-check panic when the buffer is
shorter than 16 bytes. -/
def PutBigEndian (u : Uint128) (b : List Nat) : Option (List Nat) :=
  if b.length < 16 then none
  else some ([byteOf u.hi 56, byteOf u.hi 48, byteOf u.hi 40, byteOf u.hi 32,
              byteOf u.hi 24, byteOf u.hi 16, byteOf u.hi 8, byteOf u.hi 0,
              byteOf u.lo 56, byteOf u.lo 48, byteOf u.lo 40, byteOf u.lo 32,
              byteOf u.lo 24, byteOf u.lo 16, byteOf u.lo 8, byteOf u.lo 0] ++
             b.drop 16)

/-- Method `Uint128.PutLittleEndian` (point64.go). -/
def PutLittleEndian (u : Uint128) (b : List Nat) : Option (List Nat) :=
  if b.length < 16 then none
  else some ([byteOf u.lo 0, byteOf u.lo 8, byteOf u.lo 16, byteOf u.lo 24,
              byteOf u.lo 32, byteOf u.lo 40, byteOf u.lo 48, byteOf u.lo 56,
              byteOf u.hi 0, byteOf u.hi 8, byteOf u.hi 16, byteOf u.hi 24,
              byteOf u.hi 32, byteOf u.hi 40, byteOf u.hi 48, byteOf u.hi 56] ++
             b.drop 16)

end Uint128

/-- Function `MustUint128FromBigEndian` (point64.go): decodes 16 big-endian
bytes; `none` models the bounds-check panic on a short buffer. -/
def MustUint128FromBigEndian (b : List Nat) : Option Uint128 :=
  if b.length < 16 then none
  else some
    ⟨b.getD 7 0 ||| b.getD 6 0 <<< 8 ||| b.getD 5 0 <<< 16 ||| b.getD 4 0 <<< 24 |||
     b.getD 3 0 <<< 32 ||| b.getD 2 0 <<< 40 ||| b.getD 1 0 <<< 48 ||| b.getD 0 0 <<< 56,
     b.getD 15 0 ||| b.getD 14 0 <<< 8 ||| b.getD 13 0 <<< 16 ||| b.getD 12 0 <<< 24 |||
     b.getD 11 0 <<< 32 ||| b.getD 10 0 <<< 40 ||| b.getD 9 0 <<< 48 ||| b.getD 8 0 <<< 56⟩

/-- Function `MustUint128FromLittleEndian` (point64.go). -/
def MustUint128FromLittleEndian (b : List Nat) : Option Uint128 :=
  if b.length < 16 then none
  else some
    ⟨b.getD 8 0 ||| b.getD 9 0 <<< 8 ||| b.getD 10 0 <<< 16 ||| b.getD 11 0 <<< 24 |||
     b.getD 12 0 <<< 32 ||| b.getD 13 0 <<< 40 ||| b.getD 14 0 <<< 48 ||| b.getD 15 0 <<< 56,
     b.getD 0 0 ||| b.getD 1 0 <<< 8 ||| b.getD 2 0 <<< 16 ||| b.getD 3 0 <<< 24 |||
     b.getD 4 0 <<< 32 ||| b.getD 5 0 <<< 40 ||| b.getD 6 0 <<< 48 ||| b.getD 7 0 <<< 56⟩

/-- Decimal digit value of a character, `none` for non-digits. -/
def digitVal (c : Char) : Option Nat :=
  if 48 ≤ c.toNat ∧ c.toNat ≤ 57 then some (c.toNat - 48) else none

/-- Accumulates a decimal digit string left to right. -/
def decDigitsAux : List Char → Nat → Option Nat
  | [], acc => some acc
  | c :: cs, acc =>
    match digitVal c with
    | none => none
    | some d => decDigitsAux cs (acc * 10 + d)

/-- Parses a nonempty all-digit string as a natural number. -/
def decDigits (l : List Char) : Option Nat :=
  if l = [] then none else decDigitsAux l 0

/-- Model of Go `new(big.Int).SetString(s, 10)`: an optional sign followed by
at least one decimal digit, the whole string consumed; `none` models `ok ==
false`. -/
def bigIntSetString10 : List Char → Option Int
  | '-' :: rest => (decDigits rest).map (fun n => -(n : Int))
  | '+' :: rest => (decDigits rest).map (fun n => (n : Int))
  | s => (decDigits s).map (fun n => (n : Int))

/-- Function `Uint128FromBigInt` (point64.go, 64-bit `intSize` arm): a
negative value gives `(0, false)`; up to two 64-bit words are accepted;
anything wider truncates to `MaxUint128` with `inRange == false`. -/
def Uint128FromBigInt (v : Int) : Uint128 × Bool :=
  if v < 0 then (⟨0, 0⟩, false)
  else if v < 2 ^ 128 then ((⟨(v.toNat / 2 ^ 64), v.toNat % 2 ^ 64⟩ : Uint128), true)
  else (MaxUint128, false)

/-- Function `Uint128FromString` (point64.go): `none` models a non-nil parse
error; otherwise the pair is `(out, inRange)`. -/
def Uint128FromString (s : List Char) : Option (Uint128 × Bool) :=
  (bigIntSetString10 s).map Uint128FromBigInt

/-- Method `Uint128.UnmarshalText` (point64.go): note it keeps only the value
and the error from `Uint128FromString`, discarding the `inRange` flag. -/
def Uint128.UnmarshalText (bts : List Char) : Option Uint128 :=
  (Uint128FromString bts).map (·.1)

/-- Reference rotation following the words of the specification (claim C7):
the bit-by-bit right rotation of a 128-bit value by `j` places. -/
def specRotateRight128 (v j : Nat) : Nat :=
  (v >>> j) ||| ((v % 2 ^ j) <<< (128 - j))

/-!
Theorems.  First a toolkit of general lemmas about the word primitives, then
the claims C1-C10.
-/

/-- Disjoint bitwise or is addition: if `x` sits below bit `k` and `y` is a
multiple of `2^k`, then `y ||| x = y + x`. -/
theorem lorAddOfLt {x y k : Nat} (hx : x < 2 ^ k) (hy : 2 ^ k ∣ y) : y ||| x = y + x := by
  obtain ⟨c, rfl⟩ := hy
  apply Nat.eq_of_testBit_eq
  intro j
  rw [Nat.testBit_lor]
  have h1 := Nat.testBit_mul_pow_two_add c hx j
  have h0 : (0 : Nat) < 2 ^ k := Nat.pos_pow_of_pos k (by norm_num)
  have h2 := Nat.testBit_mul_pow_two_add c h0 j
  rw [Nat.add_zero] at h2
  rw [h1, h2]
  rcases Nat.lt_or_ge j k with hj | hj
  · simp [hj, Nat.zero_testBit]
  · have hxj : x.testBit j = false :=
      Nat.testBit_lt_two_pow (lt_of_lt_of_le hx (Nat.pow_le_pow_right (by norm_num) hj))
    simp [Nat.not_lt.mpr hj, hxj]

/-- Quotient and remainder of a number presented in the form `n * P + r`. -/
theorem divmod_decomp {n X P r : Nat} (hn : 0 < n) (hX : X = n * P + r) (hr : r < n) :
    X / n = P ∧ X % n = r := by
  subst hX
  constructor
  · rw [Nat.mul_add_div hn, Nat.div_eq_of_lt hr, Nat.add_zero]
  · rw [Nat.mul_add_mod, Nat.mod_eq_of_lt hr]

/-- Shifting left then truncating to 64 bits keeps the low `64 - s` bits. -/
theorem mulModShift (a s : Nat) (hs : s ≤ 64) :
    a * 2 ^ s % 2 ^ 64 = a % 2 ^ (64 - s) * 2 ^ s := by
  have h : 2 ^ (64 - s) * 2 ^ s = 2 ^ 64 := by
    rw [← pow_add]
    congr 1
    omega
  rw [← h, Nat.mul_mod_mul_right]

/-- The sign-bit mask in arithmetic form. -/
theorem signBit_and (x : Nat) : x &&& int128SignBit = x / 2 ^ 63 % 2 * 2 ^ 63 := by
  have h : int128SignBit = 2 ^ 63 := by norm_num [int128SignBit]
  rw [h, Nat.and_two_pow, Nat.toNat_testBit]

/-- Well-formed word pairs with equal values are equal. -/
theorem Uint128.eq_of_toNat {a b : Uint128} (ha : a.Wf) (hb : b.Wf)
    (h : a.toNat = b.toNat) : a = b := by
  cases a with
  | mk x y =>
    cases b with
    | mk z w =>
      simp only [Uint128.Wf] at ha hb
      simp only [Uint128.toNat] at h
      simp only [Uint128.mk.injEq]
      omega

/-- Well-formed signed word pairs with equal raw values are equal. -/
theorem Int128.eq_of_val {a b : Int128} (ha : a.Wf) (hb : b.Wf)
    (h : a.hi * 2 ^ 64 + a.lo = b.hi * 2 ^ 64 + b.lo) : a = b := by
  cases a with
  | mk x y =>
    cases b with
    | mk z w =>
      simp only [Int128.Wf] at ha hb
      simp only at h
      simp only [Int128.mk.injEq]
      omega

/-- Negation computes the two's complement `2^128 - v` (mod `2^128`) and
preserves well-formedness. -/
theorem Int128.neg_spec (a : Int128) (ha : a.Wf) :
    a.Neg.hi * 2 ^ 64 + a.Neg.lo = (2 ^ 128 - (a.hi * 2 ^ 64 + a.lo)) % 2 ^ 128 ∧
      a.Neg.Wf := by
  cases a with
  | mk x y =>
    obtain ⟨h1, h2⟩ := ha
    simp only [Int128.Neg, Int128.Wf, MinInt128, Int128.mk.injEq, signBit_and,
      not64, wsub, wadd]
    split_ifs <;> simp_all <;> omega

/-- Disjoint bitwise or is addition, small operand on the left, all arguments
explicit for positional use. -/
theorem lorAddEq (a b k : Nat) (h1 : a < 2 ^ k) (h2 : 2 ^ k ∣ b) :
    a ||| b = a + b := by
  rw [Nat.lor_comm, lorAddOfLt h1 h2, Nat.add_comm]

/-- Reassembling the eight octets of a 64-bit word recovers the word. -/
theorem byteChainEq (x : Nat) (hx : x < 2 ^ 64) :
    byteOf x 0 ||| byteOf x 8 <<< 8 ||| byteOf x 16 <<< 16 ||| byteOf x 24 <<< 24 |||
      byteOf x 32 <<< 32 ||| byteOf x 40 <<< 40 ||| byteOf x 48 <<< 48 |||
      byteOf x 56 <<< 56 = x := by
  have hb : ∀ s : Nat, byteOf x s < 256 := by
    intro s
    simp only [byteOf]
    omega
  have hs : ∀ s k : Nat, byteOf x s <<< k = byteOf x s * 2 ^ k := by
    intro s k
    exact Nat.shiftLeft_eq _ _
  have hd : ∀ s k : Nat, (2 : Nat) ^ k ∣ byteOf x s <<< k := by
    intro s k
    rw [hs]
    exact Dvd.intro _ (mul_comm _ _)
  have q1 := hb 0
  have q2 := hb 8
  have q3 := hb 16
  have q4 := hb 24
  have q5 := hb 32
  have q6 := hb 40
  have q7 := hb 48
  rw [lorAddEq (byteOf x 0) (byteOf x 8 <<< 8) 8 q1 (hd 8 8)]
  rw [lorAddEq (byteOf x 0 + byteOf x 8 <<< 8) (byteOf x 16 <<< 16) 16
    (by rw [hs 8 8]; omega) (hd 16 16)]
  rw [lorAddEq (byteOf x 0 + byteOf x 8 <<< 8 + byteOf x 16 <<< 16)
    (byteOf x 24 <<< 24) 24 (by rw [hs 8 8, hs 16 16]; omega) (hd 24 24)]
  rw [lorAddEq (byteOf x 0 + byteOf x 8 <<< 8 + byteOf x 16 <<< 16 + byteOf x 24 <<< 24)
    (byteOf x 32 <<< 32) 32 (by rw [hs 8 8, hs 16 16, hs 24 24]; omega) (hd 32 32)]
  rw [lorAddEq
    (byteOf x 0 + byteOf x 8 <<< 8 + byteOf x 16 <<< 16 + byteOf x 24 <<< 24 +
      byteOf x 32 <<< 32)
    (byteOf x 40 <<< 40) 40 (by rw [hs 8 8, hs 16 16, hs 24 24, hs 32 32]; omega)
    (hd 40 40)]
  rw [lorAddEq
    (byteOf x 0 + byteOf x 8 <<< 8 + byteOf x 16 <<< 16 + byteOf x 24 <<< 24 +
      byteOf x 32 <<< 32 + byteOf x 40 <<< 40)
    (byteOf x 48 <<< 48) 48
    (by rw [hs 8 8, hs 16 16, hs 24 24, hs 32 32, hs 40 40]; omega) (hd 48 48)]
  rw [lorAddEq
    (byteOf x 0 + byteOf x 8 <<< 8 + byteOf x 16 <<< 16 + byteOf x 24 <<< 24 +
      byteOf x 32 <<< 32 + byteOf x 40 <<< 40 + byteOf x 48 <<< 48)
    (byteOf x 56 <<< 56) 56
    (by rw [hs 8 8, hs 16 16, hs 24 24, hs 32 32, hs 40 40, hs 48 48]; omega)
    (hd 56 56)]
  simp only [byteOf, Nat.shiftLeft_eq, Nat.shiftRight_eq_div_pow]
  omega

/-- Bound for combining a scaled digit with a remainder term. -/
theorem mulAddLt {p q a c : Nat} (hp : p < c) (hq : q < a) : p * a + q < c * a := by
  have h1 : p * a + a ≤ c * a := by
    have := Nat.mul_le_mul_right a hp
    calc p * a + a = (p + 1) * a := by ring
    _ ≤ c * a := Nat.mul_le_mul_right a hp
  omega

/-- Value of `Uint128.Sub` when no borrow escapes: exact subtraction. -/
theorem Uint128.sub_val (u v : Uint128) (hu : u.Wf) (hv : v.Wf)
    (h : v.toNat ≤ u.toNat) :
    (u.Sub v).Wf ∧ (u.Sub v).toNat = u.toNat - v.toNat := by
  obtain ⟨h1, h2⟩ := hu
  obtain ⟨h3, h4⟩ := hv
  simp only [Uint128.toNat] at h
  simp only [Uint128.Sub, sub64, Uint128.Wf, Uint128.toNat]
  split_ifs <;> refine ⟨⟨by omega, by omega⟩, by omega⟩

/-- Value of `Uint128.Mul`: the product modulo `2^128`. -/
theorem Uint128.mul_val (u v : Uint128) (hu : u.Wf) (hv : v.Wf) :
    (u.Mul v).Wf ∧ (u.Mul v).toNat = u.toNat * v.toNat % 2 ^ 128 := by
  obtain ⟨h1, h2⟩ := hu
  obtain ⟨h3, h4⟩ := hv
  have hexp : u.toNat * v.toNat =
      u.hi * v.hi * 2 ^ 128 + (u.hi * v.lo + u.lo * v.hi) * 2 ^ 64 + u.lo * v.lo := by
    simp only [Uint128.toNat]
    ring
  simp only [Uint128.Mul, mul64, wmul, Uint128.Wf, Uint128.toNat]
  simp only [Uint128.toNat] at hexp
  rw [hexp]
  refine ⟨⟨by omega, by omega⟩, by omega⟩

/-- Value of `Uint128.Cmp`: sign of the comparison of the denoted values. -/
theorem Uint128.cmp_spec (u v : Uint128) (hu : u.Wf) (hv : v.Wf) :
    u.Cmp v = if u.toNat < v.toNat then -1 else if u.toNat = v.toNat then 0 else 1 := by
  obtain ⟨h1, h2⟩ := hu
  obtain ⟨h3, h4⟩ := hv
  simp only [Uint128.Cmp, Uint128.toNat]
  split_ifs <;> omega

/-- Value of `Uint128.Inc`: successor modulo `2^128`. -/
theorem Uint128.inc_val (u : Uint128) (hu : u.Wf) :
    (u.Inc).Wf ∧ (u.Inc).toNat = (u.toNat + 1) % 2 ^ 128 := by
  obtain ⟨h1, h2⟩ := hu
  simp only [Uint128.Inc, add64, wadd, Uint128.Wf, Uint128.toNat]
  refine ⟨⟨by omega, by omega⟩, by omega⟩

/-- Value of `Uint128.Dec`: predecessor modulo `2^128`. -/
theorem Uint128.dec_val (u : Uint128) (hu : u.Wf) :
    (u.Dec).Wf ∧ (u.Dec).toNat = (u.toNat + 2 ^ 128 - 1) % 2 ^ 128 := by
  obtain ⟨h1, h2⟩ := hu
  simp only [Uint128.Dec, sub64, wsub, Uint128.Wf, Uint128.toNat]
  split_ifs <;> refine ⟨⟨by omega, by omega⟩, by omega⟩

/-- Value of `Uint128.Rsh`: division by the corresponding power of two. -/
theorem Uint128.rsh_val (u : Uint128) (hu : u.Wf) (n : Nat) :
    (u.Rsh n).Wf ∧ (u.Rsh n).toNat = u.toNat / 2 ^ n := by
  obtain ⟨h1, h2⟩ := hu
  simp only [Uint128.Rsh]
  split_ifs with e0 egt elt
  · subst e0
    refine ⟨⟨h1, h2⟩, by simp [Uint128.toNat]⟩
  · -- n > 64
    simp only [wshr, Nat.shiftRight_eq_div_pow, Uint128.Wf, Uint128.toNat]
    have hsplit : (2 : Nat) ^ n = 2 ^ 64 * 2 ^ (n - 64) := by
      rw [← pow_add]
      congr 1
      omega
    have hdd : (u.hi * 2 ^ 64 + u.lo) / 2 ^ n =
        (u.hi * 2 ^ 64 + u.lo) / 2 ^ 64 / 2 ^ (n - 64) := by
      rw [Nat.div_div_eq_div_mul, ← hsplit]
    have hfirst : (u.hi * 2 ^ 64 + u.lo) / 2 ^ 64 = u.hi := by omega
    refine ⟨⟨by omega, ?_⟩, ?_⟩
    · have : u.hi / 2 ^ (n - 64) ≤ u.hi := Nat.div_le_self _ _
      omega
    · rw [hdd, hfirst]
      omega
  · -- n < 64
    simp only [wshr, wshl, Nat.shiftRight_eq_div_pow, Nat.shiftLeft_eq, Uint128.Wf,
      Uint128.toNat]
    have hnn : n ≤ 64 := by omega
    have hml := mulModShift u.hi (64 - n) (by omega)
    have ht2 : 64 - (64 - n) = n := by omega
    rw [hml, ht2]
    have hnpos : 0 < (2 : Nat) ^ n := Nat.pos_pow_of_pos _ (by norm_num)
    have hdpos : 0 < (2 : Nat) ^ (64 - n) := Nat.pos_pow_of_pos _ (by norm_num)
    have hbd : (2 : Nat) ^ n * 2 ^ (64 - n) = 2 ^ 64 := by
      rw [← pow_add]
      congr 1
      omega
    have hlo : u.lo / 2 ^ n < 2 ^ (64 - n) := by
      rw [Nat.div_lt_iff_lt_mul hnpos]
      rw [mul_comm] at hbd
      rw [hbd]
      exact h2
    have ho : u.lo / 2 ^ n ||| u.hi % 2 ^ n * 2 ^ (64 - n) =
        u.lo / 2 ^ n + u.hi % 2 ^ n * 2 ^ (64 - n) :=
      lorAddEq _ _ _ hlo (Dvd.intro _ (mul_comm _ _))
    rw [ho]
    have hmp : u.hi % 2 ^ n < 2 ^ n := Nat.mod_lt _ hnpos
    have hdivlt : u.hi / 2 ^ n < 2 ^ 64 := lt_of_le_of_lt (Nat.div_le_self _ _) h1
    refine ⟨⟨hdivlt, by rw [← hbd]; rw [Nat.add_comm]; exact mulAddLt hmp hlo⟩, ?_⟩
    have hXeq : u.hi * 2 ^ 64 + u.lo =
        2 ^ n * (u.hi / 2 ^ n * 2 ^ 64 + (u.lo / 2 ^ n + u.hi % 2 ^ n * 2 ^ (64 - n))) +
          u.lo % 2 ^ n := by
      have hdh := Nat.div_add_mod u.hi (2 ^ n)
      have hdl := Nat.div_add_mod u.lo (2 ^ n)
      calc u.hi * 2 ^ 64 + u.lo
          = (2 ^ n * (u.hi / 2 ^ n) + u.hi % 2 ^ n) * 2 ^ 64 +
            (2 ^ n * (u.lo / 2 ^ n) + u.lo % 2 ^ n) := by rw [hdh, hdl]
        _ = 2 ^ n * (u.hi / 2 ^ n * 2 ^ 64 + u.lo / 2 ^ n) +
            u.hi % 2 ^ n * (2 ^ n * 2 ^ (64 - n)) + u.lo % 2 ^ n := by rw [hbd]; ring
        _ = 2 ^ n * (u.hi / 2 ^ n * 2 ^ 64 + (u.lo / 2 ^ n + u.hi % 2 ^ n * 2 ^ (64 - n))) +
            u.lo % 2 ^ n := by ring
    obtain ⟨hdiv, _⟩ := divmod_decomp hnpos hXeq (Nat.mod_lt _ hnpos)
    rw [hdiv]
  · -- n = 64
    have hn64 : n = 64 := by omega
    subst hn64
    simp only [Uint128.Wf, Uint128.toNat]
    refine ⟨⟨by omega, h1⟩, by omega⟩

/-- Value of `Uint128.Lsh` when the shifted value still fits in 128 bits:
exact multiplication by the power of two. -/
theorem Uint128.lsh_val (u : Uint128) (hu : u.Wf) (n : Nat) (hn : n ≤ 128)
    (hfit : u.toNat * 2 ^ n < 2 ^ 128) :
    (u.Lsh n).Wf ∧ (u.Lsh n).toNat = u.toNat * 2 ^ n := by
  obtain ⟨h1, h2⟩ := hu
  have hXlt : u.toNat = u.hi * 2 ^ 64 + u.lo := rfl
  simp only [Uint128.Lsh]
  split_ifs with e0 egt elt
  · subst e0
    refine ⟨⟨h1, h2⟩, by simp [Uint128.toNat]⟩
  · -- n > 64: the high word must be zero for the result to fit
    have hsplit : (2 : Nat) ^ n = 2 ^ (n - 64) * 2 ^ 64 := by
      rw [← pow_add]
      congr 1
      omega
    have hhi0 : u.hi = 0 := by
      by_contra hne
      have : 2 ^ 64 * 2 ^ n ≤ u.toNat * 2 ^ n := by
        have : 2 ^ 64 ≤ u.toNat := by
          rw [hXlt]
          have : 1 ≤ u.hi := by omega
          nlinarith [Nat.pos_pow_of_pos 64 (show 0 < 2 by norm_num)]
        exact Nat.mul_le_mul_right _ this
      have h2n : (2 : Nat) ^ 64 ≤ 2 ^ n := Nat.pow_le_pow_right (by norm_num) (by omega)
      have : (2 : Nat) ^ 128 ≤ 2 ^ 64 * 2 ^ n := by
        calc (2 : Nat) ^ 128 = 2 ^ 64 * 2 ^ 64 := by norm_num
        _ ≤ 2 ^ 64 * 2 ^ n := Nat.mul_le_mul_left _ h2n
      omega
    have hlofit : u.lo * 2 ^ (n - 64) < 2 ^ 64 := by
      have hc : u.toNat * 2 ^ n = u.lo * 2 ^ (n - 64) * 2 ^ 64 := by
        rw [hXlt, hhi0, hsplit]
        ring
      by_contra hge
      push_neg at hge
      have : (2 : Nat) ^ 128 ≤ u.toNat * 2 ^ n := by
        rw [hc]
        calc (2 : Nat) ^ 128 = 2 ^ 64 * 2 ^ 64 := by norm_num
        _ ≤ u.lo * 2 ^ (n - 64) * 2 ^ 64 := Nat.mul_le_mul_right _ hge
      omega
    simp only [wshl, Nat.shiftLeft_eq, Uint128.Wf, Uint128.toNat]
    rw [Nat.mod_eq_of_lt hlofit]
    refine ⟨⟨hlofit, by omega⟩, ?_⟩
    rw [hhi0, hsplit]
    ring
  · -- n < 64
    have hnn : n ≤ 64 := by omega
    have hnpos : 0 < (2 : Nat) ^ n := Nat.pos_pow_of_pos _ (by norm_num)
    have hcpos : 0 < (2 : Nat) ^ (64 - n) := Nat.pos_pow_of_pos _ (by norm_num)
    have hbd : (2 : Nat) ^ (64 - n) * 2 ^ n = 2 ^ 64 := by
      rw [← pow_add]
      congr 1
      omega
    have hhilt : u.hi < 2 ^ (64 - n) := by
      by_contra hge
      push_neg at hge
      have hstep : 2 ^ (64 - n) * 2 ^ 64 ≤ u.toNat := by
        rw [hXlt]
        have := Nat.mul_le_mul_right (2 ^ 64) hge
        omega
      have : 2 ^ (64 - n) * 2 ^ 64 * 2 ^ n ≤ u.toNat * 2 ^ n :=
        Nat.mul_le_mul_right _ hstep
      have heq : 2 ^ (64 - n) * 2 ^ 64 * 2 ^ n = 2 ^ 128 := by
        calc (2:Nat) ^ (64 - n) * 2 ^ 64 * 2 ^ n = 2 ^ (64 - n) * 2 ^ n * 2 ^ 64 := by
              ring
        _ = 2 ^ 64 * 2 ^ 64 := by rw [hbd]
        _ = 2 ^ 128 := by norm_num
      omega
    simp only [wshl, wshr, Nat.shiftLeft_eq, Nat.shiftRight_eq_div_pow, Uint128.Wf,
      Uint128.toNat]
    rw [mulModShift u.hi n hnn, mulModShift u.lo n hnn]
    rw [Nat.mod_eq_of_lt hhilt]
    have hbd2 : (2 : Nat) ^ n * 2 ^ (64 - n) = 2 ^ 64 := by rw [mul_comm]; exact hbd
    have hlodiv : u.lo / 2 ^ (64 - n) < 2 ^ n := by
      rw [Nat.div_lt_iff_lt_mul hcpos, hbd2]
      exact h2
    have ho : u.hi * 2 ^ n ||| u.lo / 2 ^ (64 - n) =
        u.hi * 2 ^ n + u.lo / 2 ^ (64 - n) :=
      lorAddOfLt hlodiv (Dvd.intro _ (mul_comm _ _))
    rw [ho]
    have hwhi : u.hi * 2 ^ n + u.lo / 2 ^ (64 - n) < 2 ^ 64 := by
      have := mulAddLt hhilt hlodiv
      omega
    have hwlo : u.lo % 2 ^ (64 - n) * 2 ^ n < 2 ^ 64 := by
      have := mulAddLt (Nat.mod_lt u.lo hcpos) hnpos
      omega
    refine ⟨⟨hwhi, hwlo⟩, ?_⟩
    have hdl := Nat.div_add_mod u.lo (2 ^ (64 - n))
    calc (u.hi * 2 ^ n + u.lo / 2 ^ (64 - n)) * 2 ^ 64 + u.lo % 2 ^ (64 - n) * 2 ^ n
        = u.hi * 2 ^ n * 2 ^ 64 +
          (2 ^ (64 - n) * (u.lo / 2 ^ (64 - n)) + u.lo % 2 ^ (64 - n)) * 2 ^ n := by
          rw [← hbd]
          ring
      _ = u.hi * 2 ^ n * 2 ^ 64 + u.lo * 2 ^ n := by rw [hdl]
      _ = (u.hi * 2 ^ 64 + u.lo) * 2 ^ n := by ring
  · -- n = 64
    have hn64 : n = 64 := by omega
    subst hn64
    have hhi0 : u.hi = 0 := by
      have h64 : (2 : Nat) ^ 64 * 2 ^ 64 = 2 ^ 128 := by norm_num
      by_contra hne
      have hge : 2 ^ 64 ≤ u.toNat := by
        rw [hXlt]
        have : 1 ≤ u.hi := by omega
        nlinarith [Nat.pos_pow_of_pos 64 (show 0 < 2 by norm_num)]
      have := Nat.mul_le_mul_right (2 ^ 64) hge
      omega
    simp only [Uint128.Wf, Uint128.toNat]
    refine ⟨⟨h2, by omega⟩, ?_⟩
    rw [hhi0]
    ring

/-- Characterization of `len64`: the bit length brackets the value. -/
theorem len64_spec (x : Nat) (h0 : x ≠ 0) :
    2 ^ (len64 x - 1) ≤ x ∧ x < 2 ^ len64 x ∧ 1 ≤ len64 x := by
  simp only [len64, h0, if_false]
  refine ⟨?_, ?_, by omega⟩
  · simpa using (Nat.le_log2 h0).mp (le_refl _)
  · exact (Nat.log2_lt h0).mp (Nat.lt_succ_self _)

/-- Characterization of `lz64` for a nonzero 64-bit word. -/
theorem lz64_spec (x : Nat) (h0 : x ≠ 0) (hx : x < 2 ^ 64) :
    lz64 x ≤ 63 ∧ 2 ^ (63 - lz64 x) ≤ x ∧ x < 2 ^ (64 - lz64 x) := by
  obtain ⟨hle, hlt, h1⟩ := len64_spec x h0
  have hlen64 : len64 x ≤ 64 := by
    by_contra hgt
    push_neg at hgt
    have : (2 : Nat) ^ 64 ≤ 2 ^ (len64 x - 1) :=
      Nat.pow_le_pow_right (by norm_num) (by omega)
    omega
  have e1 : 63 - lz64 x = len64 x - 1 := by
    simp only [lz64]
    omega
  have e2 : 64 - lz64 x = len64 x := by
    simp only [lz64]
    omega
  refine ⟨by simp only [lz64]; omega, ?_, ?_⟩
  · rw [e1]
    exact hle
  · rw [e2]
    exact hlt

/-- Characterization of `Uint128.LeadingZeros` for a nonzero value. -/
theorem uLeadingZeros_spec (u : Uint128) (hu : u.Wf) (h0 : ¬(u.hi = 0 ∧ u.lo = 0)) :
    u.LeadingZeros ≤ 127 ∧ 2 ^ (127 - u.LeadingZeros) ≤ u.toNat ∧
      u.toNat < 2 ^ (128 - u.LeadingZeros) := by
  obtain ⟨h1, h2⟩ := hu
  have htn : u.toNat = u.hi * 2 ^ 64 + u.lo := rfl
  simp only [Uint128.LeadingZeros]
  split_ifs with hhi
  · have hlo : u.lo ≠ 0 := by
      intro h
      exact h0 ⟨hhi, h⟩
    obtain ⟨ha, hb, hc⟩ := lz64_spec u.lo hlo h2
    have e1 : 127 - (lz64 u.lo + 64) = 63 - lz64 u.lo := by omega
    have e2 : 128 - (lz64 u.lo + 64) = 64 - lz64 u.lo := by omega
    rw [e1, e2, htn, hhi]
    simpa using ⟨by omega, hb, hc⟩
  · obtain ⟨ha, hb, hc⟩ := lz64_spec u.hi hhi h1
    have e1 : (2 : Nat) ^ (127 - lz64 u.hi) = 2 ^ (63 - lz64 u.hi) * 2 ^ 64 := by
      rw [← pow_add]
      congr 1
      omega
    have e2 : (2 : Nat) ^ (128 - lz64 u.hi) = 2 ^ (64 - lz64 u.hi) * 2 ^ 64 := by
      rw [← pow_add]
      congr 1
      omega
    refine ⟨by omega, ?_, ?_⟩
    · rw [e1, htn]
      have := Nat.mul_le_mul_right (2 ^ 64) hb
      omega
    · rw [e2, htn]
      have hstep : u.hi + 1 ≤ 2 ^ (64 - lz64 u.hi) := hc
      have := Nat.mul_le_mul_right (2 ^ 64) hstep
      omega

/-- The fuel-driven trailing-zero counter divides its argument. -/
theorem tzAux_dvd : ∀ f x : Nat, 0 < x → x < 2 ^ f → 2 ^ tzAux f x ∣ x := by
  intro f
  induction f with
  | zero =>
    intro x hx hlt
    omega
  | succ n ih =>
    intro x hx hlt
    simp only [tzAux]
    split_ifs with hodd
    · simpa using Nat.one_dvd x
    · have hx2 : 0 < x / 2 := by omega
      have hlt2 : x / 2 < 2 ^ n := by
        have : (2 : Nat) ^ (n + 1) = 2 ^ n * 2 := by ring
        omega
      obtain ⟨c, hc⟩ := ih (x / 2) hx2 hlt2
      refine ⟨c, ?_⟩
      have hxeven : x = 2 * (x / 2) := by omega
      rw [pow_succ]
      calc x = 2 * (x / 2) := hxeven
        _ = 2 * (2 ^ tzAux n (x / 2) * c) := by rw [← hc]
        _ = 2 ^ tzAux n (x / 2) * 2 * c := by ring

/-- `tz64` of a nonzero 64-bit word gives a dividing power of two. -/
theorem tz64_dvd (x : Nat) (h0 : 0 < x) (hx : x < 2 ^ 64) : 2 ^ tz64 x ∣ x := by
  simp only [tz64, show x ≠ 0 by omega, if_false]
  exact tzAux_dvd 64 x h0 hx

/-- The trailing-zero count is bounded by the fuel. -/
theorem tzAux_le : ∀ f x : Nat, tzAux f x ≤ f := by
  intro f
  induction f with
  | zero =>
    intro x
    simp [tzAux]
  | succ n ih =>
    intro x
    simp only [tzAux]
    split_ifs
    · omega
    · have := ih (x / 2)
      omega

/-- `Uint128.TrailingZeros` of a nonzero value gives a dividing power of two. -/
theorem uTrailingZeros_dvd (u : Uint128) (hu : u.Wf) (h0 : ¬(u.hi = 0 ∧ u.lo = 0)) :
    2 ^ u.TrailingZeros ∣ u.toNat := by
  obtain ⟨h1, h2⟩ := hu
  have htn : u.toNat = u.hi * 2 ^ 64 + u.lo := rfl
  simp only [Uint128.TrailingZeros]
  split_ifs with hlo
  · have hhi : u.hi ≠ 0 := by
      intro h
      exact h0 ⟨h, hlo⟩
    rw [htn, hlo, Nat.add_zero]
    set k := tz64 u.hi with hk
    obtain ⟨c, hc⟩ := tz64_dvd u.hi (by omega) h1
    rw [← hk] at hc
    refine ⟨c, ?_⟩
    rw [hc, pow_add]
    ring
  · rw [htn]
    have hdl : 2 ^ tz64 u.lo ∣ u.lo := tz64_dvd u.lo (by omega) h2
    have hbound : tz64 u.lo ≤ 64 := by
      simp only [tz64, hlo, if_false]
      exact tzAux_le 64 u.lo
    have hdh : 2 ^ tz64 u.lo ∣ u.hi * 2 ^ 64 :=
      Dvd.dvd.mul_left (pow_dvd_pow 2 hbound) u.hi
    exact Nat.dvd_add hdh hdl

/-- When the leading- and trailing-zero counts sum to 127, the value is the
power of two `2 ^ TrailingZeros`. -/
theorem pow2_of_lz_add_tz (d : Uint128) (hd : d.Wf) (h0 : ¬(d.hi = 0 ∧ d.lo = 0))
    (hsum : d.LeadingZeros + d.TrailingZeros = 127) :
    d.toNat = 2 ^ d.TrailingZeros ∧ d.TrailingZeros ≤ 127 := by
  obtain ⟨hlza, hlzb, hlzc⟩ := uLeadingZeros_spec d hd h0
  have htz := uTrailingZeros_dvd d hd h0
  have htzle : d.TrailingZeros ≤ 127 := by omega
  obtain ⟨c, hc⟩ := htz
  have hd0 : d.toNat ≠ 0 := by
    have hpow : (0 : Nat) < 2 ^ (127 - d.LeadingZeros) :=
      Nat.pos_pow_of_pos _ (by norm_num)
    omega
  have hcpos : 0 < c := by
    rcases Nat.eq_zero_or_pos c with h | h
    · rw [h, Nat.mul_zero] at hc
      exact absurd hc hd0
    · exact h
  have he : 128 - d.LeadingZeros = d.TrailingZeros + 1 := by omega
  rw [he] at hlzc
  have hc2 : c < 2 := by
    by_contra hge
    push_neg at hge
    have hmul : 2 ^ d.TrailingZeros * 2 ≤ 2 ^ d.TrailingZeros * c :=
      Nat.mul_le_mul_left _ hge
    rw [← hc] at hmul
    rw [pow_succ] at hlzc
    omega
  have hc1 : c = 1 := by omega
  rw [hc1, Nat.mul_one] at hc
  exact ⟨hc, htzle⟩

/-- Value of masking with `2^t - 1` realized as `Dec` then `And`: the
remainder modulo `2^t`. -/
theorem decAnd_val (u m : Uint128) (hu : u.Wf) (hm : m.Wf) (t : Nat) (ht : t ≤ 127)
    (hval : m.toNat = 2 ^ t) :
    (m.Dec.And u).Wf ∧ (m.Dec.And u).toNat = u.toNat % 2 ^ t := by
  obtain ⟨h1, h2⟩ := hu
  obtain ⟨h3, h4⟩ := hm
  have htn : u.toNat = u.hi * 2 ^ 64 + u.lo := rfl
  have hmn : m.toNat = m.hi * 2 ^ 64 + m.lo := rfl
  rcases Nat.lt_or_ge t 64 with hlt | hge
  · have hsmall : (2 : Nat) ^ t < 2 ^ 64 := Nat.pow_lt_pow_right (by norm_num) hlt
    have hhi0 : m.hi = 0 := by
      by_contra hne
      have : 2 ^ 64 ≤ m.hi * 2 ^ 64 := by
        have : 1 ≤ m.hi := by omega
        omega
      omega
    have hlov : m.lo = 2 ^ t := by omega
    have htpos : (0 : Nat) < 2 ^ t := Nat.pos_pow_of_pos _ (by norm_num)
    simp only [Uint128.Dec, Uint128.And, sub64, wsub, Uint128.Wf, Uint128.toNat,
      hhi0, hlov]
    have hcond : ¬((2 : Nat) ^ t < 1 + 0) := by omega
    simp only [hcond, if_false]
    have hstep1 : ((2 : Nat) ^ t + 2 ^ 65 - (1 + 0)) % 2 ^ 64 = 2 ^ t - 1 := by omega
    have hstep2 : ((0 : Nat) + 2 ^ 64 - 0) % 2 ^ 64 = 0 := by omega
    rw [hstep1, hstep2]
    have hmask : 2 ^ t - 1 &&& u.lo = u.lo % 2 ^ t := by
      rw [Nat.and_comm]
      exact Nat.and_pow_two_sub_one_eq_mod _ _
    have hzero : 0 &&& u.hi = 0 := Nat.zero_and _
    rw [hmask, hzero]
    have h64e : t + (64 - t) = 64 := by omega
    have hsplit : (2 : Nat) ^ 64 = 2 ^ t * 2 ^ (64 - t) := by
      rw [← pow_add, h64e]
    have hmodz : u.hi * 2 ^ 64 % 2 ^ t = 0 := by
      rw [hsplit]
      have hre : u.hi * (2 ^ t * 2 ^ (64 - t)) = 2 ^ t * (u.hi * 2 ^ (64 - t)) := by
        ring
      rw [hre]
      exact Nat.mul_mod_right _ _
    have hm2 : (u.hi * 2 ^ 64 + u.lo) % 2 ^ t = u.lo % 2 ^ t := by
      rw [Nat.add_mod, hmodz, Nat.zero_add, Nat.mod_mod_of_dvd]
      exact dvd_refl _
    have hle0 := Nat.mod_le u.lo (2 ^ t)
    refine ⟨⟨by omega, by omega⟩, ?_⟩
    rw [hm2]
    omega
  · have hsplit : (2 : Nat) ^ t = 2 ^ (t - 64) * 2 ^ 64 := by
      rw [← pow_add]
      congr 1
      omega
    have hPpos : (0 : Nat) < 2 ^ (t - 64) := Nat.pos_pow_of_pos _ (by norm_num)
    have hfields : m.lo = 0 ∧ m.hi = 2 ^ (t - 64) := by
      rw [hmn, hsplit] at hval
      constructor <;> omega
    obtain ⟨hlo0, hhiv⟩ := hfields
    have hPlt : (2 : Nat) ^ (t - 64) ≤ 2 ^ 63 := by
      have : t - 64 ≤ 63 := by omega
      exact Nat.pow_le_pow_right (by norm_num) this
    simp only [Uint128.Dec, Uint128.And, sub64, wsub, Uint128.Wf, Uint128.toNat,
      hlo0, hhiv]
    have hcond : ((0 : Nat) < 1 + 0) := by omega
    simp only [hcond, if_true]
    have hstep1 : ((0 : Nat) + 2 ^ 65 - (1 + 0)) % 2 ^ 64 = 2 ^ 64 - 1 := by omega
    have hstep2 : ((2 : Nat) ^ (t - 64) + 2 ^ 64 - 1) % 2 ^ 64 = 2 ^ (t - 64) - 1 := by
      omega
    rw [hstep1, hstep2]
    have hmask1 : 2 ^ (t - 64) - 1 &&& u.hi = u.hi % 2 ^ (t - 64) := by
      rw [Nat.and_comm]
      exact Nat.and_pow_two_sub_one_eq_mod _ _
    have hmask2 : 2 ^ 64 - 1 &&& u.lo = u.lo % 2 ^ 64 := by
      rw [Nat.and_comm]
      exact Nat.and_pow_two_sub_one_eq_mod _ 64
    rw [hmask1, hmask2, Nat.mod_eq_of_lt h2]
    have hXeq : u.hi * 2 ^ 64 + u.lo =
        2 ^ t * (u.hi / 2 ^ (t - 64)) + (u.hi % 2 ^ (t - 64) * 2 ^ 64 + u.lo) := by
      have hdh := Nat.div_add_mod u.hi (2 ^ (t - 64))
      calc u.hi * 2 ^ 64 + u.lo
          = (2 ^ (t - 64) * (u.hi / 2 ^ (t - 64)) + u.hi % 2 ^ (t - 64)) * 2 ^ 64 +
            u.lo := by rw [hdh]
        _ = 2 ^ (t - 64) * 2 ^ 64 * (u.hi / 2 ^ (t - 64)) +
            (u.hi % 2 ^ (t - 64) * 2 ^ 64 + u.lo) := by ring
        _ = 2 ^ t * (u.hi / 2 ^ (t - 64)) +
            (u.hi % 2 ^ (t - 64) * 2 ^ 64 + u.lo) := by rw [← hsplit]
    have hrlt : u.hi % 2 ^ (t - 64) * 2 ^ 64 + u.lo < 2 ^ t := by
      rw [hsplit]
      have hmp : u.hi % 2 ^ (t - 64) < 2 ^ (t - 64) := Nat.mod_lt _ hPpos
      exact mulAddLt hmp h2
    obtain ⟨_, hmod⟩ := divmod_decomp (Nat.pos_pow_of_pos _ (by norm_num)) hXeq hrlt
    have hle1 := Nat.mod_le u.hi (2 ^ (t - 64))
    refine ⟨⟨by omega, by omega⟩, ?_⟩
    rw [hmod]

/-- The too-big test of the Knuth correction loop, rephrased through the loop
invariant `rhat + q * vn1 = A`: the incremental comparison agrees with
comparing `q` against the true quotient digit. -/
theorem knuthCondIff (vn1 vn0 d A q rhat : Nat) (hI1 : rhat + q * vn1 = A) :
    (A * 2 ^ 32 + d < q * (vn1 * 2 ^ 32 + vn0) ↔ rhat * 2 ^ 32 + d < q * vn0) := by
  have hdist : q * (vn1 * 2 ^ 32 + vn0) = q * vn1 * 2 ^ 32 + q * vn0 := by ring
  rw [hdist, ← hI1]
  have hexp : (rhat + q * vn1) * 2 ^ 32 = rhat * 2 ^ 32 + q * vn1 * 2 ^ 32 := by ring
  rw [hexp]
  omega

/-- Correctness of the Knuth correction loop: started on the division
estimate with the invariant state, it returns the true quotient digit
`(A * 2^32 + d) / (vn1 * 2^32 + vn0)`. -/
theorem knuthLoop_q :
    ∀ fuel vn1 vn0 d A q rhat left right qt : Nat,
      2 ^ 31 ≤ vn1 → vn1 < 2 ^ 32 → vn0 < 2 ^ 32 → d < 2 ^ 32 →
      A < vn1 * 2 ^ 32 + vn0 →
      rhat + q * vn1 = A → left = q * vn0 → right = rhat * 2 ^ 32 + d →
      rhat < 2 ^ 32 → q ≤ 2 ^ 32 + 1 →
      qt = (A * 2 ^ 32 + d) / (vn1 * 2 ^ 32 + vn0) →
      qt ≤ q → q - qt < fuel →
      (knuthLoop vn1 vn0 d fuel q rhat left right).1 = qt := by
  intro fuel
  induction fuel with
  | zero =>
    intro vn1 vn0 d A q rhat left right qt _ _ _ _ _ _ _ _ _ _ _ _ hfuel
    omega
  | succ f ih =>
    intro vn1 vn0 d A q rhat left right qt hvl hvh hvn0 hd hA hI1 hI2 hI3 hI4 hI5
      hqt hI6 hfuel
    have hVpos : 0 < vn1 * 2 ^ 32 + vn0 := by omega
    have hqtN : qt ≤ 2 ^ 32 - 1 := by
      have hlt : A * 2 ^ 32 + d < 2 ^ 32 * (vn1 * 2 ^ 32 + vn0) := by omega
      have := (Nat.div_lt_iff_lt_mul hVpos).mpr hlt
      omega
    have hiff : (qt < q ↔ A * 2 ^ 32 + d < q * (vn1 * 2 ^ 32 + vn0)) := by
      rw [hqt]
      exact Nat.div_lt_iff_lt_mul hVpos
    have hcond : ((2 ^ 32 ≤ q ∨ right < left) ↔ qt < q) := by
      constructor
      · rintro (h | h)
        · omega
        · rw [hiff, knuthCondIff vn1 vn0 d A q rhat hI1]
          omega
      · intro h
        right
        rw [hiff, knuthCondIff vn1 vn0 d A q rhat hI1] at h
        omega
    simp only [knuthLoop, ge_iff_le, gt_iff_lt]
    split_ifs with h1 h2
    · -- condition true, continue branch: rhat + vn1 still below 2^32
      rw [hcond] at h1
      have hq1 : 1 ≤ q := by omega
      have hq1n : wsub q 1 = q - 1 := by
        simp only [wsub]
        omega
      have hrhatn : wadd rhat vn1 = rhat + vn1 := by
        simp only [wadd]
        omega
      rw [hrhatn] at h2
      have hml := Nat.mul_le_mul hI5 (show vn0 ≤ 2 ^ 32 - 1 by omega)
      have hleftlt : q * vn0 < 2 ^ 64 := by omega
      have hlv : vn0 ≤ q * vn0 := by
        calc vn0 = 1 * vn0 := (Nat.one_mul _).symm
          _ ≤ q * vn0 := Nat.mul_le_mul_right vn0 hq1
      have hleftn : wsub left vn0 = (q - 1) * vn0 := by
        simp only [wsub, hI2]
        have hsm : (q - 1) * vn0 = q * vn0 - vn0 := by
          rw [Nat.sub_mul, Nat.one_mul]
        omega
      have hshl : wshl (wadd rhat vn1) 32 = (rhat + vn1) * 2 ^ 32 := by
        simp only [wadd, wshl, Nat.shiftLeft_eq]
        have he1 : (rhat + vn1) % 2 ^ 64 = rhat + vn1 := by omega
        have he2 : (rhat + vn1) * 2 ^ 32 < 2 ^ 64 := by omega
        rw [he1, Nat.mod_eq_of_lt he2]
      have hrightn : wshl (wadd rhat vn1) 32 ||| d = (rhat + vn1) * 2 ^ 32 + d := by
        rw [hshl]
        exact lorAddOfLt (by omega) (Dvd.intro _ (mul_comm _ _))
      rw [hq1n, hleftn, hrightn, hrhatn]
      have hsm1 : (q - 1) * vn1 = q * vn1 - vn1 := by
        rw [Nat.sub_mul, Nat.one_mul]
      have hv1le : vn1 ≤ q * vn1 := by
        calc vn1 = 1 * vn1 := (Nat.one_mul _).symm
          _ ≤ q * vn1 := Nat.mul_le_mul_right vn1 hq1
      exact ih vn1 vn0 d A (q - 1) (rhat + vn1) ((q - 1) * vn0)
        ((rhat + vn1) * 2 ^ 32 + d) qt hvl hvh hvn0 hd hA (by omega) rfl rfl
        (by omega) (by omega) hqt (by omega) (by omega)
    · -- condition true, early exit: rhat + vn1 reached 2^32
      rw [hcond] at h1
      have hq1 : 1 ≤ q := by omega
      have hq1n : wsub q 1 = q - 1 := by
        simp only [wsub]
        omega
      have hrhatn : wadd rhat vn1 = rhat + vn1 := by
        simp only [wadd]
        omega
      rw [hrhatn] at h2
      have hgoal : (wsub q 1, wadd rhat vn1).1 = wsub q 1 := rfl
      rw [hgoal, hq1n]
      have hsm1 : (q - 1) * vn1 = q * vn1 - vn1 := by
        rw [Nat.sub_mul, Nat.one_mul]
      have hv1le : vn1 ≤ q * vn1 := by
        calc vn1 = 1 * vn1 := (Nat.one_mul _).symm
          _ ≤ q * vn1 := Nat.mul_le_mul_right vn1 hq1
      have hI1n : (rhat + vn1) + (q - 1) * vn1 = A := by omega
      by_contra hne
      have hlt2 : qt < q - 1 := by omega
      have hiff2 : (qt < q - 1 ↔
          A * 2 ^ 32 + d < (q - 1) * (vn1 * 2 ^ 32 + vn0)) := by
        rw [hqt]
        exact Nat.div_lt_iff_lt_mul hVpos
      rw [hiff2, knuthCondIff vn1 vn0 d A (q - 1) (rhat + vn1) hI1n] at hlt2
      have hsmall : (q - 1) * vn0 ≤ 2 ^ 32 * vn0 := by
        apply Nat.mul_le_mul_right
        omega
      have hbig : 2 ^ 64 ≤ (rhat + vn1) * 2 ^ 32 := by
        have := Nat.mul_le_mul_right (2 ^ 32) (show 2 ^ 32 ≤ rhat + vn1 by omega)
        omega
      omega
    · -- condition false: q is already the quotient digit
      rw [hcond] at h1
      show q = qt
      omega

/-- Value of the left-rotation word combination for amounts at most 64: it
realizes rotation by `s` on the 128-bit value. -/
theorem rotlBranchVal (x : Uint128) (hx : x.Wf) (s : Nat) (hs : s ≤ 64) :
    (Uint128.mk (wshl x.hi s ||| wshr x.lo (64 - s))
        (wshl x.lo s ||| wshr x.hi (64 - s))).Wf ∧
    (Uint128.mk (wshl x.hi s ||| wshr x.lo (64 - s))
        (wshl x.lo s ||| wshr x.hi (64 - s))).toNat =
      x.toNat % 2 ^ (128 - s) * 2 ^ s + x.toNat / 2 ^ (128 - s) := by
  obtain ⟨h1, h2⟩ := hx
  have hca : (2 : Nat) ^ (64 - s) * 2 ^ s = 2 ^ 64 := by
    rw [← pow_add]
    congr 1
    omega
  have hapos : 0 < (2 : Nat) ^ s := Nat.pos_pow_of_pos _ (by norm_num)
  have hcpos : 0 < (2 : Nat) ^ (64 - s) := Nat.pos_pow_of_pos _ (by norm_num)
  have e1 : wshl x.hi s = x.hi % 2 ^ (64 - s) * 2 ^ s := by
    simp only [wshl, Nat.shiftLeft_eq]
    exact mulModShift _ _ hs
  have e2 : wshl x.lo s = x.lo % 2 ^ (64 - s) * 2 ^ s := by
    simp only [wshl, Nat.shiftLeft_eq]
    exact mulModShift _ _ hs
  have e3 : wshr x.lo (64 - s) = x.lo / 2 ^ (64 - s) := by
    simp only [wshr, Nat.shiftRight_eq_div_pow]
  have e4 : wshr x.hi (64 - s) = x.hi / 2 ^ (64 - s) := by
    simp only [wshr, Nat.shiftRight_eq_div_pow]
  have hca' : (2 : Nat) ^ s * 2 ^ (64 - s) = 2 ^ 64 := by rw [mul_comm]; exact hca
  have blo : x.lo / 2 ^ (64 - s) < 2 ^ s := by
    rw [Nat.div_lt_iff_lt_mul hcpos, hca']
    exact h2
  have bhi : x.hi / 2 ^ (64 - s) < 2 ^ s := by
    rw [Nat.div_lt_iff_lt_mul hcpos, hca']
    exact h1
  have o1 : wshl x.hi s ||| wshr x.lo (64 - s) =
      x.hi % 2 ^ (64 - s) * 2 ^ s + x.lo / 2 ^ (64 - s) := by
    rw [e1, e3]
    exact lorAddOfLt blo (Dvd.intro _ (mul_comm _ _))
  have o2 : wshl x.lo s ||| wshr x.hi (64 - s) =
      x.lo % 2 ^ (64 - s) * 2 ^ s + x.hi / 2 ^ (64 - s) := by
    rw [e2, e4]
    exact lorAddOfLt bhi (Dvd.intro _ (mul_comm _ _))
  have hmp : x.hi % 2 ^ (64 - s) < 2 ^ (64 - s) := Nat.mod_lt _ hcpos
  have hmq : x.lo % 2 ^ (64 - s) < 2 ^ (64 - s) := Nat.mod_lt _ hcpos
  constructor
  · constructor
    · simp only [o1, ← hca]
      exact mulAddLt hmp blo
    · simp only [o2, ← hca]
      exact mulAddLt hmq bhi
  · simp only [Uint128.toNat, o1, o2]
    have h128 : (2 : Nat) ^ (128 - s) = 2 ^ 64 * 2 ^ (64 - s) := by
      rw [← pow_add]
      congr 1
      omega
    have hpos128 : 0 < (2 : Nat) ^ (128 - s) := Nat.pos_pow_of_pos _ (by norm_num)
    have hXeq : x.hi * 2 ^ 64 + x.lo =
        2 ^ (128 - s) * (x.hi / 2 ^ (64 - s)) +
          (2 ^ 64 * (x.hi % 2 ^ (64 - s)) + x.lo) := by
      rw [h128]
      have hd := Nat.div_add_mod x.hi (2 ^ (64 - s))
      calc x.hi * 2 ^ 64 + x.lo
          = (2 ^ (64 - s) * (x.hi / 2 ^ (64 - s)) + x.hi % 2 ^ (64 - s)) * 2 ^ 64 +
            x.lo := by rw [hd]
        _ = 2 ^ 64 * 2 ^ (64 - s) * (x.hi / 2 ^ (64 - s)) +
            (2 ^ 64 * (x.hi % 2 ^ (64 - s)) + x.lo) := by ring
    have hrlt : 2 ^ 64 * (x.hi % 2 ^ (64 - s)) + x.lo < 2 ^ (128 - s) := by
      rw [h128]
      calc 2 ^ 64 * (x.hi % 2 ^ (64 - s)) + x.lo
          < 2 ^ 64 * (x.hi % 2 ^ (64 - s)) + 2 ^ 64 := by omega
        _ = (x.hi % 2 ^ (64 - s) + 1) * 2 ^ 64 := by ring
        _ ≤ 2 ^ (64 - s) * 2 ^ 64 := Nat.mul_le_mul_right _ (by omega)
        _ = 2 ^ 64 * 2 ^ (64 - s) := by ring
    obtain ⟨hdiv, hmod⟩ := divmod_decomp hpos128 hXeq hrlt
    rw [hdiv, hmod]
    have hd2 := Nat.div_add_mod x.lo (2 ^ (64 - s))
    calc (x.hi % 2 ^ (64 - s) * 2 ^ s + x.lo / 2 ^ (64 - s)) * 2 ^ 64 +
          (x.lo % 2 ^ (64 - s) * 2 ^ s + x.hi / 2 ^ (64 - s))
        = (x.hi % 2 ^ (64 - s) * 2 ^ s) * 2 ^ 64 +
          (2 ^ (64 - s) * (x.lo / 2 ^ (64 - s)) + x.lo % 2 ^ (64 - s)) * 2 ^ s +
          x.hi / 2 ^ (64 - s) := by rw [← hca]; ring
      _ = (x.hi % 2 ^ (64 - s) * 2 ^ s) * 2 ^ 64 + x.lo * 2 ^ s +
          x.hi / 2 ^ (64 - s) := by rw [hd2]
      _ = (2 ^ 64 * (x.hi % 2 ^ (64 - s)) + x.lo) * 2 ^ s + x.hi / 2 ^ (64 - s) := by
          ring

/-- Value of the right-rotation word combination for amounts `1..63`: it
realizes left rotation by `128 - t` on the 128-bit value. -/
theorem rotrBranchVal (x : Uint128) (hx : x.Wf) (t : Nat) (ht : t ≤ 64) :
    (Uint128.mk (wshr x.hi t ||| wshl x.lo (64 - t))
        (wshr x.lo t ||| wshl x.hi (64 - t))).Wf ∧
    (Uint128.mk (wshr x.hi t ||| wshl x.lo (64 - t))
        (wshr x.lo t ||| wshl x.hi (64 - t))).toNat =
      x.toNat % 2 ^ t * 2 ^ (128 - t) + x.toNat / 2 ^ t := by
  obtain ⟨h1, h2⟩ := hx
  have hbd : (2 : Nat) ^ t * 2 ^ (64 - t) = 2 ^ 64 := by
    rw [← pow_add]
    congr 1
    omega
  have hbpos : 0 < (2 : Nat) ^ t := Nat.pos_pow_of_pos _ (by norm_num)
  have hdpos : 0 < (2 : Nat) ^ (64 - t) := Nat.pos_pow_of_pos _ (by norm_num)
  have ht2 : 64 - (64 - t) = t := by omega
  have e1 : wshl x.lo (64 - t) = x.lo % 2 ^ t * 2 ^ (64 - t) := by
    simp only [wshl, Nat.shiftLeft_eq]
    rw [mulModShift x.lo (64 - t) (by omega), ht2]
  have e2 : wshl x.hi (64 - t) = x.hi % 2 ^ t * 2 ^ (64 - t) := by
    simp only [wshl, Nat.shiftLeft_eq]
    rw [mulModShift x.hi (64 - t) (by omega), ht2]
  have e3 : wshr x.hi t = x.hi / 2 ^ t := by
    simp only [wshr, Nat.shiftRight_eq_div_pow]
  have e4 : wshr x.lo t = x.lo / 2 ^ t := by
    simp only [wshr, Nat.shiftRight_eq_div_pow]
  have hbd' : (2 : Nat) ^ (64 - t) * 2 ^ t = 2 ^ 64 := by rw [mul_comm]; exact hbd
  have bhi : x.hi / 2 ^ t < 2 ^ (64 - t) := by
    rw [Nat.div_lt_iff_lt_mul hbpos, hbd']
    exact h1
  have blo : x.lo / 2 ^ t < 2 ^ (64 - t) := by
    rw [Nat.div_lt_iff_lt_mul hbpos, hbd']
    exact h2
  have o1 : wshr x.hi t ||| wshl x.lo (64 - t) =
      x.hi / 2 ^ t + x.lo % 2 ^ t * 2 ^ (64 - t) := by
    rw [e1, e3]
    exact lorAddEq _ _ _ bhi (Dvd.intro _ (mul_comm _ _))
  have o2 : wshr x.lo t ||| wshl x.hi (64 - t) =
      x.lo / 2 ^ t + x.hi % 2 ^ t * 2 ^ (64 - t) := by
    rw [e2, e4]
    exact lorAddEq _ _ _ blo (Dvd.intro _ (mul_comm _ _))
  have hmp : x.hi % 2 ^ t < 2 ^ t := Nat.mod_lt _ hbpos
  have hmq : x.lo % 2 ^ t < 2 ^ t := Nat.mod_lt _ hbpos
  constructor
  · constructor
    · simp only [o1, ← hbd]
      rw [Nat.add_comm]
      exact mulAddLt hmq bhi
    · simp only [o2, ← hbd]
      rw [Nat.add_comm]
      exact mulAddLt hmp blo
  · simp only [Uint128.toNat, o1, o2]
    have hXeq : x.hi * 2 ^ 64 + x.lo =
        2 ^ t * (x.hi * 2 ^ (64 - t) + x.lo / 2 ^ t) + x.lo % 2 ^ t := by
      have hd := Nat.div_add_mod x.lo (2 ^ t)
      calc x.hi * 2 ^ 64 + x.lo
          = x.hi * (2 ^ t * 2 ^ (64 - t)) + (2 ^ t * (x.lo / 2 ^ t) + x.lo % 2 ^ t) := by
            rw [hbd, hd]
        _ = 2 ^ t * (x.hi * 2 ^ (64 - t) + x.lo / 2 ^ t) + x.lo % 2 ^ t := by ring
    obtain ⟨hdiv, hmod⟩ := divmod_decomp hbpos hXeq (Nat.mod_lt _ hbpos)
    rw [hdiv, hmod]
    have h128 : (2 : Nat) ^ (128 - t) = 2 ^ 64 * 2 ^ (64 - t) := by
      rw [← pow_add]
      congr 1
      omega
    have hd3 := Nat.div_add_mod x.hi (2 ^ t)
    calc (x.hi / 2 ^ t + x.lo % 2 ^ t * 2 ^ (64 - t)) * 2 ^ 64 +
          (x.lo / 2 ^ t + x.hi % 2 ^ t * 2 ^ (64 - t))
        = x.lo % 2 ^ t * (2 ^ 64 * 2 ^ (64 - t)) +
          ((2 ^ t * (x.hi / 2 ^ t) + x.hi % 2 ^ t) * 2 ^ (64 - t) + x.lo / 2 ^ t) := by
          rw [← hbd]; ring
      _ = x.lo % 2 ^ t * (2 ^ 64 * 2 ^ (64 - t)) +
          (x.hi * 2 ^ (64 - t) + x.lo / 2 ^ t) := by rw [hd3]
      _ = x.lo % 2 ^ t * 2 ^ (128 - t) + (x.hi * 2 ^ (64 - t) + x.lo / 2 ^ t) := by
          rw [h128]

/-- Value of `RotateLeft`: it rotates the 128-bit value left by `k mod 128`
places (so negative `k` rotates right), and preserves well-formedness. -/
theorem rotateLeft_val (x : Uint128) (hx : x.Wf) (k : Int) :
    (x.RotateLeft k).Wf ∧
    (x.RotateLeft k).toNat =
      x.toNat % 2 ^ (128 - (k % (128 : Int)).toNat) * 2 ^ (k % (128 : Int)).toNat +
        x.toNat / 2 ^ (128 - (k % (128 : Int)).toNat) := by
  have hmask : ((k % ((2 ^ 64 : Nat) : Int)).toNat &&& 127) = (k % (128 : Int)).toNat := by
    have h127 : (127 : Nat) = 2 ^ 7 - 1 := rfl
    rw [h127, Nat.and_pow_two_sub_one_eq_mod]
    omega
  have hs : (k % (128 : Int)).toNat < 128 := by omega
  simp only [Uint128.RotateLeft, hmask]
  split_ifs with hgt
  · obtain ⟨hwf, hval⟩ := rotrBranchVal x hx (128 - (k % (128 : Int)).toNat) (by omega)
    refine ⟨hwf, ?_⟩
    rw [hval]
    have h1 : 128 - (128 - (k % (128 : Int)).toNat) = (k % (128 : Int)).toNat := by
      omega
    rw [h1]
  · exact rotlBranchVal x hx ((k % (128 : Int)).toNat) (by omega)

/-- C4: arithmetic wraps modulo `2^128`: adding `MaxUint128` and then 1 is the
identity, incrementing `MaxUint128` gives zero, and `MaxInt128 + 1` wraps to
`MinInt128`. -/
theorem c4_wraparound_mod_2pow128 (a : Uint128) (ha : a.Wf) :
    (a.Add MaxUint128).Add (Uint128From64 1) = a ∧
    MaxUint128.Inc = zeroUint128 ∧
    MaxInt128.Add64 1 = MinInt128 := by
  refine ⟨?_, by decide, by decide⟩
  cases a with
  | mk x y =>
    simp only [Uint128.Wf] at ha
    simp only [Uint128.Add, add64, wadd, MaxUint128, maxUint64, Uint128From64,
      Uint128.mk.injEq]
    constructor <;> omega

/-- Witness for C4 at a concrete input. -/
theorem c4_wraparound_mod_2pow128_witness :
    ((⟨7, 9⟩ : Uint128).Add MaxUint128).Add (Uint128From64 1) = ⟨7, 9⟩ ∧
    MaxUint128.Inc = zeroUint128 ∧
    MaxInt128.Add64 1 = MinInt128 :=
  c4_wraparound_mod_2pow128 ⟨7, 9⟩ (by decide)

/-- C5: negation is an involution away from `MinInt128`, and `MinInt128` is
its own negation (the single overflow fixed point). -/
theorem c5_neg_involution (a : Int128) (ha : a.Wf) :
    (a ≠ MinInt128 → a.Neg.Neg = a) ∧ Int128.Neg MinInt128 = MinInt128 := by
  refine ⟨fun _ => ?_, by decide⟩
  have h1 := Int128.neg_spec a ha
  have h2 := Int128.neg_spec a.Neg h1.2
  apply Int128.eq_of_val h2.2 ha
  rw [h2.1, h1.1]
  have hb := ha
  simp only [Int128.Wf] at hb
  omega

/-- Witness for C5 at a concrete input. -/
theorem c5_neg_involution_witness :
    ((⟨5, 7⟩ : Int128).Neg.Neg = ⟨5, 7⟩) ∧ Int128.Neg MinInt128 = MinInt128 :=
  ⟨(c5_neg_involution ⟨5, 7⟩ (by decide)).1 (by decide),
   (c5_neg_involution ⟨5, 7⟩ (by decide)).2⟩

set_option maxRecDepth 8000 in
/-- C6: 16-byte big/little-endian serialization round-trips exactly, writes
exactly the first 16 bytes of the buffer, and all four byte functions panic
(modeled as `none`) on a buffer shorter than 16 bytes. -/
theorem c6_byte_roundtrip (a : Uint128) (ha : a.Wf) (buf : List Nat)
    (hb : 16 ≤ buf.length) (short : List Nat) (hshort : short.length < 16) :
    (a.PutBigEndian buf).bind MustUint128FromBigEndian = some a ∧
    (a.PutLittleEndian buf).bind MustUint128FromLittleEndian = some a ∧
    (a.PutBigEndian buf).map List.length = some buf.length ∧
    (a.PutBigEndian buf).map (List.drop 16) = some (buf.drop 16) ∧
    a.PutBigEndian short = none ∧ a.PutLittleEndian short = none ∧
    MustUint128FromBigEndian short = none ∧
    MustUint128FromLittleEndian short = none := by
  obtain ⟨h1, h2⟩ := ha
  cases a with
  | mk x y =>
    simp only [Uint128.Wf] at h1 h2
    have hnb : ¬buf.length < 16 := by omega
    refine ⟨?_, ?_, ?_, ?_, ?_, ?_, ?_, ?_⟩
    · simp only [Uint128.PutBigEndian, MustUint128FromBigEndian, hnb, if_false,
        Option.bind_some, Option.some_bind, List.length_append, List.length_cons,
        List.length_nil, List.length_drop]
      have hlen : ¬(0 + 1 + 1 + 1 + 1 + 1 + 1 + 1 + 1 + 1 + 1 + 1 + 1 + 1 + 1 + 1 + 1 +
          (buf.length - 16) < 16) := by omega
      simp only [List.getD_cons_zero, List.getD_cons_succ, List.getD, Nat.zero_add]
      split_ifs with hc
      · omega
      · simp only [Option.some.injEq, Uint128.mk.injEq, List.get?]
        constructor
        · exact byteChainEq x h1
        · exact byteChainEq y h2
    · simp only [Uint128.PutLittleEndian, MustUint128FromLittleEndian, hnb, if_false,
        Option.some_bind]
      simp only [List.getD_cons_zero, List.getD_cons_succ, List.getD, Nat.zero_add]
      split_ifs with hc
      · simp only [List.length_append, List.length_cons, List.length_nil,
          List.length_drop] at hc
        omega
      · simp only [Option.some.injEq, Uint128.mk.injEq, List.get?]
        constructor
        · exact byteChainEq x h1
        · exact byteChainEq y h2
    · simp only [Uint128.PutBigEndian, hnb, if_false, Option.map_some',
        List.length_append, List.length_cons, List.length_nil, List.length_drop,
        Option.some.injEq]
      omega
    · simp [Uint128.PutBigEndian, hnb]
    · simp [Uint128.PutBigEndian, hshort]
    · simp [Uint128.PutLittleEndian, hshort]
    · simp [MustUint128FromBigEndian, hshort]
    · simp [MustUint128FromLittleEndian, hshort]

/-- Witness for C6 at a concrete input. -/
theorem c6_byte_roundtrip_witness :
    (((⟨3, 5⟩ : Uint128).PutBigEndian (List.replicate 16 0)).bind
        MustUint128FromBigEndian = some ⟨3, 5⟩) ∧
    (((⟨3, 5⟩ : Uint128).PutLittleEndian (List.replicate 16 0)).bind
        MustUint128FromLittleEndian = some ⟨3, 5⟩) ∧
    (((⟨3, 5⟩ : Uint128).PutBigEndian (List.replicate 16 0)).map List.length =
        some (List.replicate 16 0).length) ∧
    (((⟨3, 5⟩ : Uint128).PutBigEndian (List.replicate 16 0)).map (List.drop 16) =
        some ((List.replicate 16 0).drop 16)) ∧
    (⟨3, 5⟩ : Uint128).PutBigEndian [] = none ∧
    (⟨3, 5⟩ : Uint128).PutLittleEndian [] = none ∧
    MustUint128FromBigEndian [] = none ∧
    MustUint128FromLittleEndian [] = none :=
  c6_byte_roundtrip ⟨3, 5⟩ (by decide) (List.replicate 16 0) (by decide) []
    (by decide)

/-- C7: `RotateLeft` rotates within 128 bits; `RotateLeft (-k)` inverts
`RotateLeft k`; rotating by 128 is the identity; and a negative amount
`-j` (for `0 <= j < 128`) performs the bit-by-bit right rotation by `j`. -/
theorem c7_rotateLeft_bijection (x : Uint128) (hx : x.Wf) (k : Int) :
    (x.RotateLeft k).RotateLeft (-k) = x ∧
    x.RotateLeft 128 = x ∧
    (∀ j : Nat, j < 128 →
      (x.RotateLeft (-(j : Int))).toNat = specRotateRight128 x.toNat j) := by
  have hXname : x.toNat = x.hi * 2 ^ 64 + x.lo := rfl
  have hX : x.toNat < 2 ^ 128 := by
    obtain ⟨h1, h2⟩ := hx
    omega
  obtain ⟨hwf1, hval1⟩ := rotateLeft_val x hx k
  obtain ⟨hwf2, hval2⟩ := rotateLeft_val (x.RotateLeft k) hwf1 (-k)
  refine ⟨?_, ?_, ?_⟩
  · apply Uint128.eq_of_toNat hwf2 hx
    rw [hval2, hval1]
    rcases (show ((k % (128 : Int)).toNat = 0 ∧ ((-k) % (128 : Int)).toNat = 0) ∨
        ((k % (128 : Int)).toNat + ((-k) % (128 : Int)).toNat = 128 ∧
          0 < (k % (128 : Int)).toNat ∧ (k % (128 : Int)).toNat < 128) by omega) with
      h | h
    · rw [h.1, h.2]
      norm_num
      omega
    · obtain ⟨hsum, hpos, hlt⟩ := h
      have hs2 : ((-k) % (128 : Int)).toNat = 128 - (k % (128 : Int)).toNat := by omega
      rw [hs2]
      have h1 : 128 - (128 - (k % (128 : Int)).toNat) = (k % (128 : Int)).toNat := by
        omega
      rw [h1]
      have hma : (2 : Nat) ^ (128 - (k % (128 : Int)).toNat) *
          2 ^ (k % (128 : Int)).toNat = 2 ^ 128 := by
        rw [← pow_add]
        congr 1
        omega
      have hmpos : 0 < (2 : Nat) ^ (128 - (k % (128 : Int)).toNat) :=
        Nat.pos_pow_of_pos _ (by norm_num)
      have hapos : 0 < (2 : Nat) ^ (k % (128 : Int)).toNat :=
        Nat.pos_pow_of_pos _ (by norm_num)
      have hdivlt : x.toNat / 2 ^ (128 - (k % (128 : Int)).toNat) <
          2 ^ (k % (128 : Int)).toNat := by
        rw [Nat.div_lt_iff_lt_mul hmpos]
        rw [mul_comm] at hma
        rw [hma]
        exact hX
      have hYeq : x.toNat % 2 ^ (128 - (k % (128 : Int)).toNat) *
            2 ^ (k % (128 : Int)).toNat +
            x.toNat / 2 ^ (128 - (k % (128 : Int)).toNat) =
          2 ^ (k % (128 : Int)).toNat *
            (x.toNat % 2 ^ (128 - (k % (128 : Int)).toNat)) +
            x.toNat / 2 ^ (128 - (k % (128 : Int)).toNat) := by
        ring
      obtain ⟨hdiv, hmod⟩ := divmod_decomp hapos hYeq hdivlt
      rw [hdiv, hmod, mul_comm]
      exact Nat.div_add_mod _ _
  · obtain ⟨hwf3, hval3⟩ := rotateLeft_val x hx 128
    apply Uint128.eq_of_toNat hwf3 hx
    rw [hval3]
    norm_num
    omega
  · intro j hj
    obtain ⟨hwfj, hvalj⟩ := rotateLeft_val x hx (-(j : Int))
    rw [hvalj]
    have hsj : ((-(j : Int)) % (128 : Int)).toNat = (128 - j) % 128 := by omega
    rw [hsj]
    rcases Nat.eq_zero_or_pos j with hz | hpos
    · subst hz
      simp only [specRotateRight128, Nat.shiftRight_eq_div_pow, Nat.shiftLeft_eq,
        Nat.cast_zero, neg_zero, Int.zero_emod, Int.toNat_zero, Nat.mod_one,
        Nat.zero_mul, Nat.or_zero, pow_zero, Nat.sub_zero, mul_one, Nat.div_one]
      norm_num
      omega
    · have he : (128 - j) % 128 = 128 - j := by omega
      rw [he]
      have h1 : 128 - (128 - j) = j := by omega
      rw [h1]
      have hjpos : 0 < (2 : Nat) ^ j := Nat.pos_pow_of_pos _ (by norm_num)
      have hd : (2 : Nat) ^ j * 2 ^ (128 - j) = 2 ^ 128 := by
        rw [← pow_add]
        congr 1
        omega
      have hdl : x.toNat / 2 ^ j < 2 ^ (128 - j) := by
        rw [Nat.div_lt_iff_lt_mul hjpos]
        rw [mul_comm] at hd
        rw [hd]
        exact hX
      simp only [specRotateRight128, Nat.shiftRight_eq_div_pow, Nat.shiftLeft_eq]
      rw [lorAddEq _ _ _ hdl (Dvd.intro _ (mul_comm _ _))]
      omega

/-- Witness for C7 at a concrete input. -/
theorem c7_rotateLeft_bijection_witness :
    (((⟨3, 12345⟩ : Uint128).RotateLeft 68).RotateLeft (-68) = ⟨3, 12345⟩) ∧
    ((⟨3, 12345⟩ : Uint128).RotateLeft 128 = ⟨3, 12345⟩) ∧
    (∀ j : Nat, j < 128 →
      ((⟨3, 12345⟩ : Uint128).RotateLeft (-(j : Int))).toNat =
        specRotateRight128 (⟨3, 12345⟩ : Uint128).toNat j) :=
  c7_rotateLeft_bijection ⟨3, 12345⟩ (by decide) 68

set_option maxRecDepth 4000 in
/-- C8: refuted on the code.  `Uint128.UnmarshalText` discards the `inRange`
flag of `Uint128FromString`, so the payload `"3402...11456"` (the decimal
text of `2^128`, outside the 128-bit range) is accepted without error and
silently clamped to `MaxUint128`, whose value differs from the payload's
denotation.  (`Uint128.Scan` in the same file rejects the same input,
so the spec's rejection requirement reflects the intent.) -/
theorem c8_unmarshalText_clamps_out_of_range :
    Uint128.UnmarshalText ("340282366920938463463374607431768211456".toList) =
      some MaxUint128 ∧
    bigIntSetString10 ("340282366920938463463374607431768211456".toList) =
      some ((2 : Int) ^ 128) ∧
    (MaxUint128.toNat : Int) ≠ (2 : Int) ^ 128 := by
  refine ⟨by decide, by decide, by decide⟩

/-- C10: the 64-bit-operand fast paths agree with promoting the operand to a
full 128-bit value first, on both engines. -/
theorem c10_64bit_variants_agree (i : Int128) (hii : i.Wf) (n : Int)
    (hn : -(2 ^ 63) ≤ n ∧ n < 2 ^ 63) (u : Uint128) (hu : u.Wf) (m : Nat)
    (hm : m < 2 ^ 64) :
    i.Add64 n = i.Add (Int128FromInt64 n) ∧
    i.Sub64 n = i.Sub (Int128FromInt64 n) ∧
    i.Cmp64 n = i.Cmp (Int128FromInt64 n) ∧
    u.Add64 m = u.Add (Uint128From64 m) ∧
    u.Sub64 m = u.Sub (Uint128From64 m) ∧
    u.Cmp64 m = u.Cmp (Uint128From64 m) := by
  cases i with
  | mk a b =>
    cases u with
    | mk c d =>
      simp only [Int128.Wf] at hii
      simp only [Uint128.Wf] at hu
      refine ⟨?_, ?_, ?_, ?_, ?_, ?_⟩
      · simp only [Int128.Add64, Int128.Add, add64, wadd, Int128FromInt64, maxUint64]
        split_ifs <;> simp only [Int128.mk.injEq, and_true, true_and] <;> omega
      · simp only [Int128.Sub64, Int128.Sub, sub64, wsub, Int128FromInt64, maxUint64]
        dsimp only
        split_ifs <;> simp only [Int128.mk.injEq, and_true, true_and] <;> omega
      · simp only [Int128.Cmp64, Int128.Cmp, Int128FromInt64, maxUint64]
      · simp only [Uint128.Add64, Uint128.Add, add64, wadd, Uint128From64]
        simp only [Uint128.mk.injEq, and_true, true_and]
        omega
      · simp only [Uint128.Sub64, Uint128.Sub, sub64, wsub, Uint128From64]
        dsimp only
        split_ifs <;> simp only [Uint128.mk.injEq, and_true, true_and] <;> omega
      · simp only [Uint128.Cmp64, Uint128.Cmp, Uint128From64]
        dsimp only
        split_ifs <;> omega

/-- Witness for C10 at concrete inputs. -/
theorem c10_64bit_variants_agree_witness :
    ((⟨3, 4⟩ : Int128).Add64 (-5) = (⟨3, 4⟩ : Int128).Add (Int128FromInt64 (-5))) ∧
    ((⟨3, 4⟩ : Int128).Sub64 (-5) = (⟨3, 4⟩ : Int128).Sub (Int128FromInt64 (-5))) ∧
    ((⟨3, 4⟩ : Int128).Cmp64 (-5) = (⟨3, 4⟩ : Int128).Cmp (Int128FromInt64 (-5))) ∧
    ((⟨1, 2⟩ : Uint128).Add64 6 = (⟨1, 2⟩ : Uint128).Add (Uint128From64 6)) ∧
    ((⟨1, 2⟩ : Uint128).Sub64 6 = (⟨1, 2⟩ : Uint128).Sub (Uint128From64 6)) ∧
    ((⟨1, 2⟩ : Uint128).Cmp64 6 = (⟨1, 2⟩ : Uint128).Cmp (Uint128From64 6)) :=
  c10_64bit_variants_agree ⟨3, 4⟩ (by decide) (-5) (by constructor <;> decide)
    ⟨1, 2⟩ (by decide) 6 (by decide)
